import Mathlib

/-!
Verification of the stoker-obsidian inventory core against its specification.

The development shallowly embeds the three core modules:

* the markdown codec (`parseMarkdown` / `toMarkdown` of
  `src/data/inventory-store.ts`),
* the record store operations (`getStockStatus`, `updateItem`,
  `increaseAmount`, `decreaseAmount`, batched category rename),
* the list coordinator (`src/data/list-manager.ts`: `initialize`,
  `syncDiscoveredFiles`, `createList`, `deleteList`).

JavaScript strings are modelled as `List Char`, JavaScript numbers as `ℚ`
(the reachable values are finite decimals produced by `parseFloat` on digit
strings; binary floating-point rounding is outside the model, and number
printing is modelled as plain decimal rendering, i.e. without the exponent
notation JavaScript uses only for magnitudes outside [1e-6, 1e21)).
-/

namespace Stoker

/-- JavaScript strings are sequences of characters. -/
abbrev JStr := List Char

/-- Embed a Lean string literal as a model string. -/
def str (s : String) : JStr := s.data

/-- Whitespace as used by `String.prototype.trim` and `\s` (ASCII fragment;
the source only ever produces spaces and newlines around tokens). -/
def isWhite (c : Char) : Bool := c = ' ' || c = '\t' || c = '\n' || c = '\r'

/-- Leading-whitespace strip. -/
def ltrim (s : JStr) : JStr := s.dropWhile isWhite

/-- Trailing-whitespace strip. -/
def rtrim (s : JStr) : JStr := (s.reverse.dropWhile isWhite).reverse

/-- `String.prototype.trim`. -/
def trim (s : JStr) : JStr := ltrim (rtrim s)

/-- `String.prototype.split` with a single-character separator. -/
def splitOnChar (sep : Char) : JStr → List JStr
  | [] => [[]]
  | c :: rest =>
    if c = sep then [] :: splitOnChar sep rest
    else
      match splitOnChar sep rest with
      | [] => [[c]]
      | h :: t => (c :: h) :: t

/-- ASCII fragment of `String.prototype.toLowerCase`. -/
def lowerChar (c : Char) : Char :=
  if 'A' ≤ c ∧ c ≤ 'Z' then Char.ofNat (c.toNat + 32) else c

/-- Lowercase a model string. -/
def toLowerStr (s : JStr) : JStr := s.map lowerChar

/-- Digit character for a value below ten. -/
def digitChar : ℕ → Char
  | 0 => '0' | 1 => '1' | 2 => '2' | 3 => '3' | 4 => '4'
  | 5 => '5' | 6 => '6' | 7 => '7' | 8 => '8' | _ => '9'

/-- Numeric value of a digit character. -/
def digitVal (c : Char) : ℕ := c.toNat - 48

/-- Little-endian digit expansion with an explicit recursion-depth budget
(the budget makes the recursion structural, so the kernel can evaluate it). -/
def natDigitsRevAux : ℕ → ℕ → List ℕ
  | 0, n => [n]
  | fuel + 1, n => if n < 10 then [n] else (n % 10) :: natDigitsRevAux fuel (n / 10)

/-- Little-endian digit list of a natural number. -/
def natDigitsRev (n : ℕ) : List ℕ := natDigitsRevAux n n

/-- Decimal rendering of a natural number (the integer case of JavaScript
number-to-string conversion). -/
def natToStr (n : ℕ) : JStr := ((natDigitsRev n).reverse).map digitChar

/-- Value of a digit string, most significant digit first. -/
def digitsToNat (s : JStr) : ℕ := s.foldl (fun a c => a * 10 + digitVal c) 0

/-- A number-literal character: a digit or a decimal point (the class `[\d.]`). -/
def isNumChar (c : Char) : Bool := c.isDigit || c = '.'

/-- Least exponent `k < 40` with `d ∣ 10 ^ k`, used to render a rational with a
terminating decimal expansion the way JavaScript prints the corresponding float. -/
def decExp (d : ℕ) : Option ℕ := (List.range 40).find? (fun k => 10 ^ k % d == 0)

/-- The rationals the model can print as a plain decimal numeral; every number
the source can produce (`parseFloat` output of digit strings, integer
arithmetic, `Math.max` with 0) lies in this class. -/
def DecRenderable (q : ℚ) : Bool := (decExp q.den).isSome

/-- Left-pad a digit string with zeros to width `k`. -/
def padZeros (s : JStr) (k : ℕ) : JStr := List.replicate (k - s.length) '0' ++ s

/-- Decimal rendering of a non-negative rational, modelling JavaScript
number-to-string conversion (`` `${item.amount}` ``) for finite decimals. -/
def ratToStr (q : ℚ) : JStr :=
  if q.den = 1 then natToStr q.num.toNat
  else
    match decExp q.den with
    | some k =>
      let m := q.num.toNat * 10 ^ k / q.den
      natToStr (m / 10 ^ k) ++ '.' :: padZeros (natToStr (m % 10 ^ k)) k
    | none => str "0"

/-- Model of `parseFloat(s) || 0` restricted to inputs drawn from `[\d.]+`
matches: leading digits, an optional point and fraction digits, ignoring any
trailing junk (as `parseFloat` does); `NaN` collapses to `0` via `|| 0`. -/
def parseFloatOr0 (s : JStr) : ℚ :=
  let ip := s.takeWhile Char.isDigit
  let rest := s.dropWhile Char.isDigit
  match rest with
  | '.' :: r =>
    let fp := r.takeWhile Char.isDigit
    if ip = [] ∧ fp = [] then 0
    else (digitsToNat ip : ℚ) + (digitsToNat fp : ℚ) / (10 : ℚ) ^ fp.length
  | _ => if ip = [] then 0 else (digitsToNat ip : ℚ)

/-! ## Data model (src/types.ts) -/

/-- Unit types (`src/types.ts`, `UnitType`). -/
inductive UnitType
  | count | portion | weight | volume | boolean
deriving DecidableEq, Repr

/-- A JavaScript `number | boolean` amount, as a tagged union. -/
inductive Amount
  | num (q : ℚ)
  | flag (b : Bool)
deriving DecidableEq, Repr

/-- An inventory item (`src/types.ts`, `InventoryItem`, imported as `FoodItem`
by the store). Ids are opaque unique strings produced by `generateId()` in the
source; the model generates them from a counter instead of clock+randomness. -/
structure FoodItem where
  id : ℕ
  name : JStr
  category : JStr
  unitType : UnitType
  amount : Amount
  unit : JStr
  minimum : Option ℚ
  plannedRestock : Bool
deriving DecidableEq, Repr

/-- Derived stock status (`src/types.ts`, `StockStatus`). -/
inductive StockStatus
  | normal | warning | out | inStock
deriving DecidableEq, Repr

/-! ## StatusEvaluator and codec (src/data/inventory-store.ts) -/

/-- JavaScript truthiness of `item.amount` (`item.amount ? ... : ...`). -/
def amountTruthy : Amount → Bool
  | .num q => decide (q ≠ 0)
  | .flag b => b

/-- Value of `typeof item.amount === 'number' ? item.amount : 0` (line 42). -/
def amountNumOr0 : Amount → ℚ
  | .num q => q
  | .flag _ => 0

/-- `getStockStatus` (inventory-store.ts lines 37-53). -/
def getStockStatus (item : FoodItem) : StockStatus :=
  if item.unitType = .boolean then
    if amountTruthy item.amount then .inStock else .out
  else
    let amount := amountNumOr0 item.amount
    if amount ≤ 0 then .out
    else
      match item.minimum with
      | some minimum => if 0 < minimum ∧ amount ≤ minimum then .warning else .normal
      | none => .normal

/-- Unit-type inference from the parsed numeric amount and unit string
(inventory-store.ts lines 141-159). In the source this code runs on `unit`
taken from the already-lowercased `amountPart`, so there `unit = unitLower`;
the function keeps the source's two variables faithfully. -/
def inferUnitType (amount : ℚ) (unit : JStr) : UnitType :=
  let unitLower := toLowerStr unit
  if unitLower = str "kg" ∨ unitLower = str "g" ∨ unitLower = str "lb" ∨
      unitLower = str "oz" then .weight
  else if unitLower = str "l" ∨ unitLower = str "ml" ∨ unitLower = str "gal" ∨
      unitLower = str "fl oz" then .volume
  else if unit = [] ∨ unit = str "portion" then .portion
  else if unitLower = str "pcs" ∨ unitLower = str "pieces" ∨
      unitLower = str "items" ∨ unitLower = str "units" then .count
  else if amount ≠ (Int.floor amount : ℚ) ∧ unit.length ≤ 3 then .portion
  else .count

/-- Regex `^([\d.]+)\s*(.*)$` applied to the amount field (line 136): a
maximal nonempty run of `[\d.]`, then whitespace, then the unit remainder. -/
def matchAmount (s : JStr) : Option (JStr × JStr) :=
  let numStr := s.takeWhile isNumChar
  if numStr = [] then none
  else some (numStr, (s.dropWhile isNumChar).dropWhile isWhite)

/-- Regex `/^min:\s*([\d.]+)$/i` applied to a pipe field (line 169).
Lowercasing first is equivalent to the case-insensitive flag because the
captured group admits only digits and dots, which lowercasing fixes. -/
def matchMin (s : JStr) : Option JStr :=
  let t := toLowerStr s
  if (str "min:").isPrefixOf t then
    let rest := (t.drop 4).dropWhile isWhite
    if rest ≠ [] ∧ rest.all isNumChar then some rest else none
  else none

/-- Scan of `parts[2..]` for `min:` and `restock` tokens (lines 164-177).
`parseFloat` of a `[\d.]+` capture is modelled by `parseFloatOr0`; the
capture `"."` would give `NaN` in JavaScript, which `ℚ` cannot represent
(the serializer never emits it). -/
def scanExtras (parts : List JStr) : Option ℚ × Bool :=
  parts.foldl
    (fun acc part =>
      if part = [] then acc
      else
        let min1 := match matchMin part with
          | some numStr => some (parseFloatOr0 numStr)
          | none => acc.1
        let restock1 := if toLowerStr part = str "restock" then true else acc.2
        (min1, restock1))
    (none, false)

/-- `parseItemContent` (inventory-store.ts lines 115-200). The source returns
`null` only when the pipe split is empty, which `String.split` never
produces; the check is kept. `id` stands in for `this.generateId()`. -/
def parseItemContent (id : ℕ) (content : JStr) (category : JStr)
    (statusChar : Char) : Option FoodItem :=
  let parts := (splitOnChar '|' content).map trim
  if parts = [] then none
  else
    let name := parts.headD []
    let base : UnitType × Amount × JStr :=
      if 2 ≤ parts.length then
        let amountPart := toLowerStr (parts.getD 1 [])
        if amountPart = str "in stock" then (.boolean, .flag true, str "pcs")
        else if amountPart = str "out of stock" then (.boolean, .flag false, str "pcs")
        else
          match matchAmount amountPart with
          | some (numStr, rest) =>
            let amount := parseFloatOr0 numStr
            (inferUnitType amount rest, .num amount, rest)
          | none => (.count, .num 0, str "pcs")
      else (.count, .num 0, str "pcs")
    let extras := scanExtras (parts.drop 2)
    let amount :=
      if statusChar = 'x' ∧ base.1 ≠ .boolean then base.2.1
      else if statusChar = '-' then
        (if base.1 = .boolean then Amount.flag false else Amount.num 0)
      else base.2.1
    some { id := id, name := name, category := category, unitType := base.1,
           amount := amount, unit := base.2.2, minimum := extras.1,
           plannedRestock := extras.2 }

/-- Regex `^- \[(.)\] (.+)$` on the trimmed line (line 99), as a shape
match: the five-character frame, one status character, a nonempty rest. -/
def matchItemLine (t : JStr) : Option (Char × JStr) :=
  match t with
  | a :: b :: l :: c :: r :: sp :: rest =>
    if a = '-' ∧ b = ' ' ∧ l = '[' ∧ r = ']' ∧ sp = ' ' ∧ rest ≠ [] then
      some (c, rest)
    else none
  | _ => none

/-- State of the `parseMarkdown` line loop. -/
structure PState where
  items : List FoodItem
  currentCategory : JStr
  inFrontmatter : Bool
  nextId : ℕ
deriving Repr

/-- One iteration of the `parseMarkdown` loop body (lines 65-109). Frontmatter
key lines (`version:`, `lastUpdated:`) only set document metadata, which the
item-level claims never observe; the loop still skips them faithfully. -/
def parseLine (st : PState) (line : JStr) : PState :=
  let trimmed := trim line
  if trimmed = str "---" then { st with inFrontmatter := !st.inFrontmatter }
  else if st.inFrontmatter then st
  else if (str "## ").isPrefixOf trimmed then
    let cat := trim (trimmed.drop 3)
    let cat := if toLowerStr cat = str "uncategorized" then [] else cat
    { st with currentCategory := cat }
  else
    match matchItemLine trimmed with
    | some (c, content) =>
      match parseItemContent st.nextId content st.currentCategory c with
      | some item => { st with items := st.items ++ [item], nextId := st.nextId + 1 }
      | none => st
    | none => st

/-- `parseMarkdown` (inventory-store.ts lines 58-110), returning the items. -/
def parseMarkdown (content : JStr) : List FoodItem :=
  ((splitOnChar '\n' content).foldl parseLine
    { items := [], currentCategory := [], inFrontmatter := false, nextId := 0 }).items

/-- Status character selection in `itemToMarkdownLine` (lines 255-270). -/
def statusChar (item : FoodItem) : Char :=
  match getStockStatus item with
  | .out => '-'
  | .warning => '!'
  | .inStock => 'x'
  | .normal => ' '

/-- Interpolation `${item.amount}` for the non-boolean branch; a boolean
amount (shape violation) would print as `true`/`false`. -/
def amountToStr : Amount → JStr
  | .num q => ratToStr q
  | .flag b => if b then str "true" else str "false"

/-- `itemToMarkdownLine` (inventory-store.ts lines 254-289). -/
def itemToMarkdownLine (item : FoodItem) : JStr :=
  let c := statusChar item
  let line := str "- [" ++ [c] ++ str "] " ++ item.name
  let line := line ++
    (if item.unitType = .boolean then
      (if amountTruthy item.amount then str " | in stock" else str " | out of stock")
    else str " | " ++ amountToStr item.amount ++ [' '] ++ item.unit)
  let line := line ++
    (match item.minimum with
     | some m => if item.unitType = .boolean then [] else str " | min: " ++ ratToStr m
     | none => [])
  line ++ (if item.plannedRestock then str " | restock" else [])

/-- Insertion-ordered grouping bucket update, modelling the `Map` building in
`toMarkdown` (lines 217-225): a new key is appended, an existing key extends
its bucket in place. -/
def insertGroup (acc : List (JStr × List FoodItem)) (cat : JStr)
    (item : FoodItem) : List (JStr × List FoodItem) :=
  match acc with
  | [] => [(cat, [item])]
  | (c, xs) :: rest =>
    if c = cat then (c, xs ++ [item]) :: rest
    else (c, xs) :: insertGroup rest cat item

/-- Map of items keyed by category (the `item.category || ...` fallback is the identity on model strings) in insertion order. -/
def groupByCategory (items : List FoodItem) : List (JStr × List FoodItem) :=
  items.foldl (fun acc i => insertGroup acc i.category i) []

/-- Category comparator of `toMarkdown` (lines 228-232): empty ("uncategorized")
last, otherwise `localeCompare`, modelled as code-point order. `catLE a b`
means the comparator lets `a` stay in front of `b`. -/
def strLtB : JStr → JStr → Bool
  | [], [] => false
  | [], _ :: _ => true
  | _ :: _, [] => false
  | a :: as, b :: bs => if a < b then true else if b < a then false else strLtB as bs

def catLE (a b : JStr) : Bool :=
  if a = [] then b = []
  else if b = [] then true
  else !(strLtB b a)

/-- Bucket lookup, `categorized.get(category)!` (line 235). -/
def lookupGroup (groups : List (JStr × List FoodItem)) (cat : JStr) :
    List FoodItem :=
  match groups.find? (fun p => p.1 = cat) with
  | some p => p.2
  | none => []

/-- Join with newlines, modelling the `lines.join` call with a newline separator. -/
def joinLines : List JStr → JStr
  | [] => []
  | [l] => l
  | l :: rest => l ++ '\n' :: joinLines rest

/-- `toMarkdown` (inventory-store.ts lines 205-249). `version` is the store
field; `date` stands for the current-date stamp the source computes. Array
sort with the source comparator (stable in JavaScript) is modelled by
insertion sort on the comparator relation. -/
def toMarkdown (version : ℕ) (date : JStr) (items : List FoodItem) : JStr :=
  let groups := groupByCategory items
  let sortedCats := (groups.map Prod.fst).insertionSort (fun a b => catLE a b = true)
  let headerLines : List JStr :=
    [str "---", str "stoker-plugin: inventory",
     str "version: " ++ natToStr version,
     str "lastUpdated: " ++ date, str "---", []]
  let catBlock := fun (cat : JStr) =>
    (str "## " ++ (if cat = [] then str "Uncategorized" else cat)) ::
      ((lookupGroup groups cat).map itemToMarkdownLine ++ [[]])
  joinLines (headerLines ++ (sortedCats.map catBlock).flatten)

/-! ## RecordStore operations (src/data/inventory-store.ts) -/

/-- Inventory change events (src/types.ts, `InventoryEventType`). -/
inductive InvEvent
  | itemAdded | itemUpdated | itemDeleted | dataLoaded
deriving DecidableEq, Repr

/-- An update object of type Partial Omit-id FoodItem. A property that is
absent and a property explicitly set to `undefined` are indistinguishable at
runtime in JavaScript, hence a single `Option` layer per field. -/
structure ItemUpdates where
  name : Option JStr := none
  category : Option JStr := none
  unitType : Option UnitType := none
  amount : Option Amount := none
  unit : Option JStr := none
  minimum : Option ℚ := none
  plannedRestock : Option Bool := none
deriving DecidableEq, Repr

/-- Field merge of `updateItem` (inventory-store.ts lines 415-424): `??` for
the first five fields and an `!== undefined` presence check for `minimum` and
`plannedRestock`. Both reduce to the same selection, because `??` and
`!== undefined` treat exactly the same runtime values (absent or undefined)
as missing for these property types. -/
def mergeItem (cur : FoodItem) (u : ItemUpdates) : FoodItem :=
  { id := cur.id
    name := u.name.getD cur.name
    category := u.category.getD cur.category
    unitType := u.unitType.getD cur.unitType
    amount := u.amount.getD cur.amount
    unit := u.unit.getD cur.unit
    minimum := match u.minimum with
      | some m => some m
      | none => cur.minimum
    plannedRestock := match u.plannedRestock with
      | some b => b
      | none => cur.plannedRestock }

/-- `Array.prototype.findIndex`, with `none` for the -1 sentinel. -/
def findIndexJ {α : Type} (p : α → Bool) : List α → Option ℕ
  | [] => none
  | a :: t => if p a then some 0 else (findIndexJ p t).map (· + 1)

/-- In-memory store state: the private `items` array, instrumented with the
number of persistence (`save()`) calls issued and the events emitted, so that
write-count and notification claims are expressible. `save` itself performs
document output, which the store-level claims only count. -/
structure StoreState where
  items : List FoodItem
  saves : ℕ
  events : List (InvEvent × Option FoodItem)
deriving Repr

/-- `updateItem` (inventory-store.ts lines 408-432). -/
def updateItem (st : StoreState) (id : ℕ) (u : ItemUpdates) :
    Option FoodItem × StoreState :=
  match findIndexJ (fun it => decide (it.id = id)) st.items with
  | none => (none, st)
  | some idx =>
    match st.items[idx]? with
    | none => (none, st)
    | some cur =>
      let updated := mergeItem cur u
      (some updated,
        { items := st.items.set idx updated,
          saves := st.saves + 1,
          events := st.events ++ [(.itemUpdated, some updated)] })

/-- `getItem` (lines 385-387). -/
def getItemS (st : StoreState) (id : ℕ) : Option FoodItem :=
  st.items.find? (fun it => decide (it.id = id))

/-- The `item.amount as number` cast followed by JavaScript arithmetic: a
boolean leaking through the cast coerces to 0/1. -/
def amountAsNumber : Amount → ℚ
  | .num q => q
  | .flag b => if b then 1 else 0

/-- `increaseAmount` (lines 451-458); the `by = 1` default is supplied at
call sites. -/
def increaseAmount (st : StoreState) (id : ℕ) (amt : ℚ) :
    Option FoodItem × StoreState :=
  match getItemS st id with
  | none => (none, st)
  | some item =>
    if item.unitType = .boolean then (none, st)
    else updateItem st id { amount := some (.num (amountAsNumber item.amount + amt)) }

/-- `decreaseAmount` (lines 463-471): floor clamped at 0 by `Math.max`. -/
def decreaseAmount (st : StoreState) (id : ℕ) (amt : ℚ) :
    Option FoodItem × StoreState :=
  match getItemS st id with
  | none => (none, st)
  | some item =>
    if item.unitType = .boolean then (none, st)
    else updateItem st id
      { amount := some (.num (max 0 (amountAsNumber item.amount - amt))) }

/-- The in-memory half of one merge, shared by the batch operation. -/
def applyMergeById (items : List FoodItem) (id : ℕ) (u : ItemUpdates) :
    List FoodItem :=
  match findIndexJ (fun it => decide (it.id = id)) items with
  | none => items
  | some idx =>
    match items[idx]? with
    | none => items
    | some cur => items.set idx (mergeItem cur u)

/-- Modelled from the spec: the implementation of
`InventoryStore.updateItemsBatch` is not among the provided sources — only
its caller `CategoryManageModal.renameCategory` / `deleteCategory` is.
Spec section 4.3: applies all merges to the in-memory list, then issues
exactly one persist call, and emits one `item-updated` event per updated
item. -/
def updateItemsBatch (st : StoreState) (us : List (ℕ × ItemUpdates)) :
    StoreState :=
  let items1 := us.foldl (fun acc p => applyMergeById acc p.1 p.2) st.items
  { items := items1,
    saves := st.saves + 1,
    events := st.events ++ us.map (fun p =>
      (InvEvent.itemUpdated, items1.find? (fun it => decide (it.id = p.1)))) }

/-- `CategoryManageModal.renameCategory` (list-manager.ts source block lines
953-975): collect one category update per item in the old category and apply
them in a single batch; the store is not called when no item matches. -/
def renameCategory (st : StoreState) (oldName newName : JStr) : StoreState :=
  let updates := (st.items.filter (fun i => decide (i.category = oldName))).map
    (fun i => (i.id, ({ category := some newName } : ItemUpdates)))
  if 0 < updates.length then updateItemsBatch st updates else st

/-- Fixture: a weight item at half its minimum threshold. -/
def cheeseItem : FoodItem :=
  { id := 0, name := str "Cheese", category := [], unitType := .weight,
    amount := .num (1/2), unit := str "kg", minimum := some 1,
    plannedRestock := false }

/-- Fixture: a weight item with a set minimum, as EditItemModal would edit. -/
def c4Item : FoodItem :=
  { id := 1, name := str "Flour", category := str "Baking", unitType := .weight,
    amount := .num 2, unit := str "kg", minimum := some 1, plannedRestock := false }

/-- Fixture: a dairy item. -/
def milkDairy : FoodItem :=
  { id := 2, name := str "Milk", category := str "Dairy", unitType := .volume,
    amount := .num 2, unit := str "l", minimum := none, plannedRestock := false }

/-- Fixture: a second dairy item. -/
def cheeseDairy : FoodItem :=
  { id := 3, name := str "Cheese", category := str "Dairy", unitType := .weight,
    amount := .num 1, unit := str "kg", minimum := none, plannedRestock := false }

/-- Fixture: a three-item store. -/
def c2Store : StoreState :=
  { items := [c4Item, milkDairy, cheeseDairy], saves := 0, events := [] }

/-! ## ListCoordinator (src/data/list-manager.ts) -/

/-- A vault file: path, text content, and whether the metadata cache reports
the stoker inventory frontmatter marker (what discovery scans for). -/
structure MFile where
  path : JStr
  content : JStr
  marker : Bool
deriving DecidableEq

/-- The document-store collaborator: the files, plus per-path failure
switches for reads and writes so that fallible persistence is expressible. -/
structure MVault where
  files : List MFile
  readOk : JStr → Bool
  writeOk : JStr → Bool

/-- `vault.getAbstractFileByPath`. -/
def lookupFile (v : MVault) (p : JStr) : Option MFile :=
  v.files.find? (fun f => decide (f.path = p))

/-- `fileExists` (list-manager.ts lines 67-70). -/
def fileExists (v : MVault) (p : JStr) : Bool :=
  (lookupFile v p).isSome

/-- `vault.modify` / `vault.create` as performed by `InventoryStore.save`;
a created document carries the serialized discovery marker. -/
def writeFile (v : MVault) (p : JStr) (content : JStr) : MVault :=
  let replaced := v.files.map
    (fun f => if f.path = p then { f with content := content } else f)
  if (lookupFile v p).isSome then { v with files := replaced }
  else
    { v with files := v.files ++ [{ path := p, content := content, marker := true }] }

/-- A cached `InventoryStore` as the coordinator sees it. -/
structure MStore where
  filePath : JStr
  items : List FoodItem
deriving DecidableEq

/-- `InventoryStore.load` (inventory-store.ts lines 294-306): a missing file
yields an empty inventory, never an error; a failing read rejects. -/
def storeLoad (v : MVault) (s : MStore) : Except Unit MStore :=
  match lookupFile v s.filePath with
  | some f =>
    if v.readOk s.filePath then Except.ok { s with items := parseMarkdown f.content }
    else Except.error ()
  | none => Except.ok { s with items := [] }

/-- Date stamp the model uses when serializing. -/
def modelDate : JStr := str "2025-01-29"

/-- `InventoryStore.save` (lines 311-322): serialize and write back; a
refused create/modify rejects. -/
def storeSave (v : MVault) (s : MStore) : Except Unit MVault :=
  if v.writeOk s.filePath then
    Except.ok (writeFile v s.filePath (toMarkdown 1 modelDate s.items))
  else Except.error ()

/-- An `InventoryList` descriptor (src/types.ts). -/
structure MList where
  id : ℕ
  name : JStr
  filePath : JStr
deriving DecidableEq

/-- List change events (src/types.ts, `ListEventType`). -/
inductive ListEvent
  | created | deleted | switched | updated
deriving DecidableEq, Repr

/-- Coordinator state: the settings fields (`lists`, `activeListId`), the
store cache, the fresh-id counter standing in for `generateId`, the count of
`saveSettings` calls, and the emitted list events. -/
structure LMState where
  lists : List MList
  activeListId : Option ℕ
  stores : List (ℕ × MStore)
  nextId : ℕ
  settingsSaves : ℕ
  listEvents : List ListEvent
deriving DecidableEq

/-- `getList` (list-manager.ts lines 193-195). -/
def getListM (st : LMState) (id : ℕ) : Option MList :=
  st.lists.find? (fun l => decide (l.id = id))

/-- `this.stores.get(id)`. -/
def storesGet (st : LMState) (id : ℕ) : Option MStore :=
  (st.stores.find? (fun p => decide (p.1 = id))).map Prod.snd

/-- `getStore` (list-manager.ts lines 208-222): lazily constructs and caches
a store for a known list. -/
def getStoreM (st : LMState) (id : ℕ) : Option MStore × LMState :=
  match getListM st id with
  | none => (none, st)
  | some l =>
    match storesGet st id with
    | some s => (some s, st)
    | none =>
      let s : MStore := { filePath := l.filePath, items := [] }
      (some s, { st with stores := st.stores ++ [(id, s)] })

/-- Cache write-back after the shared store object mutates (the model keeps
the cache entries explicit where the source mutates one shared object). -/
def storesSet (st : LMState) (id : ℕ) (s : MStore) : LMState :=
  { st with stores := st.stores.map (fun p => if p.1 = id then (id, s) else p) }

/-- Load of the active store, as performed inside `initialize` (lines 53-58)
and inside `deleteList` after re-activation (lines 296-302). -/
def loadActive (v : MVault) (st : LMState) : Except Unit LMState :=
  match st.activeListId with
  | none => Except.ok st
  | some a =>
    match getStoreM st a with
    | (none, st1) => Except.ok st1
    | (some s, st1) =>
      match storeLoad v s with
      | Except.ok s1 => Except.ok (storesSet st1 a s1)
      | Except.error e => Except.error e

/-- `deleteList` (list-manager.ts lines 282-309). The vault is part of the
result so that the untouched-document property is a real statement; the
source never calls any vault mutation here. -/
def deleteList (v : MVault) (st : LMState) (id : ℕ) :
    Except Unit (Bool × LMState × MVault) :=
  match findIndexJ (fun l => decide (l.id = id)) st.lists with
  | none => Except.ok (false, st, v)
  | some idx =>
    let st1 := { st with lists := st.lists.eraseIdx idx,
                         stores := st.stores.filter (fun p => decide (¬ p.1 = id)) }
    let go : Except Unit LMState :=
      if st.activeListId = some id then
        loadActive v { st1 with activeListId := st1.lists.head?.map MList.id }
      else Except.ok st1
    match go with
    | Except.error e => Except.error e
    | Except.ok st3 =>
      Except.ok (true,
        { st3 with settingsSaves := st3.settingsSaves + 1,
                   listEvents := st3.listEvents ++ [.deleted] }, v)

/-- `createList` (list-manager.ts lines 244-277): the id is generated first,
the new store is loaded and saved to validate the target, and only then are
the descriptor appended, the store cached, the first list activated, and the
configuration persisted; a load or save failure rejects beforehand. -/
def createList (v : MVault) (st : LMState) (name filePath : JStr) :
    Except Unit MList × LMState × MVault :=
  let newList : MList := { id := st.nextId, name := name, filePath := filePath }
  let st0 := { st with nextId := st.nextId + 1 }
  let store : MStore := { filePath := filePath, items := [] }
  match storeLoad v store with
  | Except.error e => (Except.error e, st0, v)
  | Except.ok store1 =>
    match storeSave v store1 with
    | Except.error e => (Except.error e, st0, v)
    | Except.ok v1 =>
      let st1 := { st0 with lists := st0.lists ++ [newList],
                            stores := st0.stores ++ [(newList.id, store1)] }
      let st2 := if st1.lists.length = 1 then
          { st1 with activeListId := some newList.id }
        else st1
      (Except.ok newList,
        { st2 with settingsSaves := st2.settingsSaves + 1,
                   listEvents := st2.listEvents ++ [.created] }, v1)

/-- `discoverInventoryFiles` (src/utils/file-discovery.ts): every vault file
whose cached frontmatter carries the inventory marker. -/
def discoverInventoryFiles (v : MVault) : List MFile :=
  v.files.filter (fun f => f.marker)

/-- Join with a separator character. -/
def joinSep (sep : Char) : List JStr → JStr
  | [] => []
  | [x] => x
  | x :: rest => x ++ sep :: joinSep sep rest

/-- `TFile.basename`: final path segment without its extension; used only as
the display name of auto-discovered lists. -/
def basenameOf (p : JStr) : JStr :=
  let file := ((splitOnChar '/' p).getLast?).getD p
  let parts := splitOnChar '.' file
  if parts.length ≤ 1 then file else joinSep '.' parts.dropLast

/-- Removal phase of `syncDiscoveredFiles` (lines 83-107): drop descriptors
whose documents vanished, clear their cache entries, clear the active pointer
if it pointed at one of them. Returns the state and the hasChanges flag. -/
def syncRemovePhase (v : MVault) (st : LMState) : LMState × Bool :=
  let listsToRemove := (st.lists.filter (fun l => !fileExists v l.filePath)).map MList.id
  if listsToRemove ≠ [] then
    ({ st with
        lists := st.lists.filter (fun l => decide (l.id ∉ listsToRemove)),
        stores := st.stores.filter (fun p => decide (p.1 ∉ listsToRemove)),
        activeListId := match st.activeListId with
          | some a => if a ∈ listsToRemove then none else some a
          | none => none }, true)
  else (st, false)

/-- Discovery phase step (lines 110-127): auto-add a discovered file not yet
listed, with a fresh id and the basename as name. -/
def syncAddStep (acc : LMState × Bool) (f : MFile) : LMState × Bool :=
  if (acc.1.lists.find? (fun l => decide (l.filePath = f.path))).isSome then acc
  else
    ({ acc.1 with
        lists := acc.1.lists ++
          [{ id := acc.1.nextId, name := basenameOf f.path, filePath := f.path }],
        nextId := acc.1.nextId + 1 }, true)

/-- First-list activation (lines 130-133). -/
def syncActivatePhase (acc : LMState × Bool) : LMState × Bool :=
  if 0 < acc.1.lists.length ∧ acc.1.activeListId = none then
    ({ acc.1 with activeListId := acc.1.lists.head?.map MList.id }, true)
  else acc

/-- `syncDiscoveredFiles` (list-manager.ts lines 78-138). -/
def syncDiscoveredFiles (v : MVault) (st : LMState) : LMState :=
  let acc2 := (discoverInventoryFiles v).foldl syncAddStep (syncRemovePhase v st)
  let acc3 := syncActivatePhase acc2
  if acc3.2 then { acc3.1 with settingsSaves := acc3.1.settingsSaves + 1 }
  else acc3.1

/-- `initialize` (list-manager.ts lines 48-62): discovery sync, then load of
the active store. The file watcher started afterwards only registers
callbacks; with no external vault change it never fires, so it is outside
the state model. -/
def initializeM (v : MVault) (st : LMState) : Except Unit LMState :=
  loadActive v (syncDiscoveredFiles v st)

/-- Fixture: a two-file vault with both documents carrying the marker and a
fully permissive document store. -/
def c7Vault : MVault :=
  { files := [{ path := str "a.md", content := [], marker := true },
              { path := str "b.md", content := [], marker := true }],
    readOk := fun _ => true,
    writeOk := fun _ => true }

/-- Fixture: a vault that refuses writes everywhere. -/
def c8VaultRO : MVault :=
  { files := [],
    readOk := fun _ => true,
    writeOk := fun _ => false }

/-- Fixture: a coordinator tracking the two vault files, the first active. -/
def c7State : LMState :=
  { lists := [{ id := 1, name := str "a", filePath := str "a.md" },
              { id := 2, name := str "b", filePath := str "b.md" }],
    activeListId := some 1,
    stores := [],
    nextId := 3,
    settingsSaves := 0,
    listEvents := [] }

/-- Fixture: a fresh configuration before any discovery. -/
def c9Start : LMState :=
  { lists := [], activeListId := none, stores := [], nextId := 1,
    settingsSaves := 0, listEvents := [] }

/-- Fixture: the configuration after one initialize over `c7Vault`. -/
def c9Mid : LMState :=
  { lists := [{ id := 1, name := str "a", filePath := str "a.md" },
              { id := 2, name := str "b", filePath := str "b.md" }],
    activeListId := some 1,
    stores := [(1, { filePath := str "a.md", items := [] })],
    nextId := 3, settingsSaves := 1, listEvents := [] }

/-! ## Reference-level model of the read-only projections
(inventory-store.ts lines 348-386).  JavaScript records are heap objects: the
private `items` array holds references, `getItems` returns `[...this.items]`
(a fresh array of the same references) and `getItem` returns
`this.items.find(...)`, the found reference itself.  The model makes the heap
explicit: a reference is an index into a heap of records. -/

/-- The store with its heap made explicit: `itemRefs` is the private `items`
array, a list of references; `heap` maps each reference to its record. -/
structure RefStore where
  itemRefs : List ℕ
  heap : List FoodItem
deriving DecidableEq, Repr

/-- Dereference one record (reading `heap[r]`). -/
def derefR (s : RefStore) (r : ℕ) : Option FoodItem := s.heap[r]?

/-- The record list the store itself works on: `this.items`, dereferenced. -/
def storeItems (s : RefStore) : List FoodItem := s.itemRefs.filterMap (derefR s)

/-- `getItems()` (line 348): `return [...this.items]` — the spread builds a
fresh array whose elements are the same references. -/
def getItemsRefs (s : RefStore) : List ℕ := s.itemRefs

/-- `getItem(id)` (line 384): `this.items.find(item => item.id === id)`; the
found reference is handed to the caller as is, not copied. -/
def getItemRef (s : RefStore) (id : ℕ) : Option ℕ :=
  s.itemRefs.find? (fun r =>
    match derefR s r with
    | some it => it.id == id
    | none => false)

/-- Category grouping on references (same shape as insertGroup). -/
def insertGroupR (acc : List (JStr × List ℕ)) (cat : JStr)
    (r : ℕ) : List (JStr × List ℕ) :=
  match acc with
  | [] => [(cat, [r])]
  | (c, xs) :: rest =>
    if c = cat then (c, xs ++ [r]) :: rest
    else (c, xs) :: insertGroupR rest cat r

/-- `getItemsByCategory()` (lines 355-367): groups the live references by
category in first-appearance order — the code pushes `item`, not a copy, into
each per-category array. -/
def getItemsByCategoryRefs (s : RefStore) : List (JStr × List ℕ) :=
  s.itemRefs.foldl (fun acc r =>
    match derefR s r with
    | some it => insertGroupR acc it.category r
    | none => acc) []

/-- A caller-side field assignment through a reference obtained from a
projection (`record.name = newName`): the write lands on the shared heap
record; the store is not consulted. -/
def writeNameR (s : RefStore) (r : ℕ) (nm : JStr) : RefStore :=
  match s.heap[r]? with
  | some it => { s with heap := s.heap.set r { it with name := nm } }
  | none => s

/-- Fixture: a store holding one record, at heap address 0. -/
def c6Refs : RefStore := { itemRefs := [0], heap := [cheeseItem] }

/-- Fixture: a volume item whose unit is spelled with a capital letter, as the
Dairy example document of the specification writes it ("2 L"). -/
def milkL : FoodItem :=
  { id := 7, name := str "Milk", category := str "Dairy", unitType := .volume,
    amount := .num 2, unit := str "L", minimum := none, plannedRestock := false }

/-- Concatenation with the `" | "` separator the serializer uses. -/
def joinBar : List JStr → JStr
  | [] => []
  | [s] => s
  | s :: rest => s ++ str " | " ++ joinBar rest

/-- A stored text field: sanitizeInput (validation.ts) trims its input and
strips the characters of FORBIDDEN_CHARS, so a stored field is trim-stable
and free of pipes, brackets and line breaks. -/
def validStr (s : JStr) : Bool :=
  decide (trim s = s) &&
    s.all (fun c => !(c = '|' || c = '[' || c = ']' || c = '\n' || c = '\r'))

/-- Data-model invariants of a stored item, as the specification states them
for the round trip: sanitized text fields; the category is never the literal
spelled-out form of the uncategorized sentinel (section 6 normalizes it
away); the amount shape matches the unit type; boolean items carry no
minimum and the default unit; numbers are non-negative finite decimals; and
the unit-type-inference heuristic is idempotent on the stored unit. -/
def validItem (it : FoodItem) : Bool :=
  validStr it.name && validStr it.category && validStr it.unit &&
  !(toLowerStr it.category == str "uncategorized") &&
  (if it.unitType = .boolean then
    (match it.amount with
     | .flag _ => decide (it.minimum = none) && (it.unit == str "pcs")
     | .num _ => false)
  else
    (match it.amount with
     | .flag _ => false
     | .num q =>
       decide (0 ≤ q) && DecRenderable q &&
       (inferUnitType q (toLowerStr it.unit) == it.unitType) &&
       (match it.minimum with
        | some m => decide (0 ≤ m) && DecRenderable m
        | none => true)))

/-- The content of a serialized item line after the `- [c] ` frame. -/
def bodyOf (item : FoodItem) : JStr :=
  item.name ++
    (if item.unitType = .boolean then
      (if amountTruthy item.amount then str " | in stock" else str " | out of stock")
    else str " | " ++ amountToStr item.amount ++ [' '] ++ item.unit) ++
    (match item.minimum with
     | some m => if item.unitType = .boolean then [] else str " | min: " ++ ratToStr m
     | none => []) ++
    (if item.plannedRestock then str " | restock" else [])

/-- The tail a serialized line appends after the first two fields: each extra
segment preceded by the separator. -/
def barTail (xs : List JStr) : JStr :=
  xs.foldr (fun x acc => str " | " ++ x ++ acc) []

/-- The amount-field interpretation of parseItemContent (lines 126-160),
factored out on the already-trimmed second field. -/
def baseOf (apRaw : JStr) : UnitType × Amount × JStr :=
  let amountPart := toLowerStr apRaw
  if amountPart = str "in stock" then (.boolean, .flag true, str "pcs")
  else if amountPart = str "out of stock" then (.boolean, .flag false, str "pcs")
  else
    match matchAmount amountPart with
    | some (numStr, rest) =>
      let amount := parseFloatOr0 numStr
      (inferUnitType amount rest, .num amount, rest)
    | none => (.count, .num 0, str "pcs")

/-- The status-character override of parseItemContent (lines 180-188). -/
def amtOverride (c : Char) (base : UnitType × Amount × JStr) : Amount :=
  if c = 'x' ∧ base.1 ≠ .boolean then base.2.1
  else if c = '-' then (if base.1 = .boolean then Amount.flag false else Amount.num 0)
  else base.2.1

/-- Renumbering that the parse applies to serialized items: fresh sequential
ids and lowercased units. -/
def reDo (n : ℕ) : List FoodItem → List FoodItem
  | [] => []
  | x :: rest => { x with id := n, unit := toLowerStr x.unit } :: reDo (n + 1) rest

/-- Forget the freshly generated id (ids are not persisted in the text form). -/
def eraseId (it : FoodItem) : FoodItem := { it with id := 0 }

/-- What the round trip preserves of an item: everything except the id, with
the unit compared after lowercasing. -/
def canonUnit (it : FoodItem) : FoodItem :=
  { it with id := 0, unit := toLowerStr it.unit }

/-! ## Theorems -/

theorem natDigitsRevAux_congr {f1 f2 n : ℕ} (h1 : n ≤ f1) (h2 : n ≤ f2) :
    natDigitsRevAux f1 n = natDigitsRevAux f2 n := by
  induction f1 generalizing f2 n with
  | zero =>
    have hn : n = 0 := by omega
    subst hn
    cases f2 with
    | zero => rfl
    | succ g => simp [natDigitsRevAux]
  | succ g1 ih =>
    cases f2 with
    | zero =>
      have hn : n = 0 := by omega
      subst hn
      simp [natDigitsRevAux]
    | succ g2 =>
      simp only [natDigitsRevAux]
      by_cases hn : n < 10
      · rw [if_pos hn, if_pos hn]
      · rw [if_neg hn, if_neg hn]
        have hd : n / 10 < n := Nat.div_lt_self (by omega) (by omega)
        rw [ih (show n / 10 ≤ g1 by omega) (show n / 10 ≤ g2 by omega)]

theorem natDigitsRev_unfold (n : ℕ) :
    natDigitsRev n = if n < 10 then [n] else (n % 10) :: natDigitsRev (n / 10) := by
  unfold natDigitsRev
  by_cases hn : n < 10
  · rw [if_pos hn]
    cases n with
    | zero => rfl
    | succ m =>
      simp only [natDigitsRevAux]
      rw [if_pos hn]
  · rw [if_neg hn]
    cases n with
    | zero => omega
    | succ m =>
      simp only [natDigitsRevAux]
      rw [if_neg hn]
      have hd : (m + 1) / 10 < m + 1 := Nat.div_lt_self (by omega) (by omega)
      rw [natDigitsRevAux_congr (by omega) (le_refl _)]

theorem digitVal_digitChar {d : ℕ} (h : d < 10) : digitVal (digitChar d) = d := by
  interval_cases d <;> rfl

theorem isDigit_digitChar {d : ℕ} (h : d < 10) : (digitChar d).isDigit = true := by
  interval_cases d <;> rfl

theorem natDigitsRev_lt (n : ℕ) : ∀ d ∈ natDigitsRev n, d < 10 := by
  induction n using Nat.strong_induction_on with
  | _ n ih =>
    rw [natDigitsRev_unfold]
    split
    · intro d hd
      simp only [List.mem_singleton] at hd
      omega
    · intro d hd
      rcases List.mem_cons.1 hd with h | h
      · omega
      · exact ih (n / 10) (Nat.div_lt_self (by omega) (by omega)) d h

theorem natDigitsRev_ne_nil (n : ℕ) : natDigitsRev n ≠ [] := by
  rw [natDigitsRev_unfold]
  split <;> simp

theorem digitsToNat_append (s : JStr) (c : Char) :
    digitsToNat (s ++ [c]) = 10 * digitsToNat s + digitVal c := by
  simp [digitsToNat, List.foldl_append]
  ring

theorem digitsToNat_natToStr (n : ℕ) : digitsToNat (natToStr n) = n := by
  induction n using Nat.strong_induction_on with
  | _ n ih =>
    rw [natToStr, natDigitsRev_unfold]
    split
    · next h =>
      simp only [List.reverse_singleton, List.map_cons, List.map_nil]
      show digitsToNat ([] ++ [digitChar n]) = n
      rw [digitsToNat_append, digitVal_digitChar h]
      simp [digitsToNat]
    · next h =>
      simp only [List.reverse_cons, List.map_append, List.map_cons, List.map_nil]
      rw [digitsToNat_append]
      rw [show ((natDigitsRev (n / 10)).reverse.map digitChar) = natToStr (n / 10) from rfl]
      rw [ih (n / 10) (Nat.div_lt_self (by omega) (by omega))]
      rw [digitVal_digitChar (Nat.mod_lt n (by omega))]
      omega

theorem natToStr_ne_nil (n : ℕ) : natToStr n ≠ [] := by
  intro h
  apply natDigitsRev_ne_nil n
  have := congrArg List.length h
  simp [natToStr] at this
  exact this

theorem natToStr_digits (n : ℕ) : ∀ c ∈ natToStr n, c.isDigit = true := by
  intro c hc
  simp only [natToStr, List.mem_map, List.mem_reverse] at hc
  obtain ⟨d, hd, rfl⟩ := hc
  exact isDigit_digitChar (natDigitsRev_lt n d hd)

theorem natDigitsRev_length_le {n k : ℕ} (hk : 0 < k) (h : n < 10 ^ k) :
    (natDigitsRev n).length ≤ k := by
  induction n using Nat.strong_induction_on generalizing k with
  | _ n ih =>
    rw [natDigitsRev_unfold]
    split
    · simpa using hk
    · next hn =>
      simp only [List.length_cons]
      have hk1 : 0 < k - 1 := by
        rcases Nat.lt_or_ge k 2 with h2 | h2
        · interval_cases k
          simp at h
          omega
        · omega
      have hlt : n / 10 < 10 ^ (k - 1) := by
        rw [Nat.div_lt_iff_lt_mul (by omega)]
        calc n < 10 ^ k := h
        _ = 10 ^ (k - 1) * 10 := by
              rw [← pow_succ]
              congr 1
              omega
      have := ih (n / 10) (Nat.div_lt_self (by omega) (by omega)) hk1 hlt
      omega

theorem natToStr_length_le {n k : ℕ} (hk : 0 < k) (h : n < 10 ^ k) :
    (natToStr n).length ≤ k := by
  simpa [natToStr] using natDigitsRev_length_le hk h

theorem digitsToNat_replicate_zero (z : ℕ) (s : JStr) :
    digitsToNat (List.replicate z '0' ++ s) = digitsToNat s := by
  induction z with
  | zero => simp
  | succ z ih =>
    simp only [List.replicate_succ, List.cons_append]
    show digitsToNat (List.replicate z '0' ++ s) = digitsToNat s
    exact ih

theorem takeWhile_append_all {α : Type} {p : α → Bool} {a b : List α}
    (h : ∀ c ∈ a, p c = true) : (a ++ b).takeWhile p = a ++ b.takeWhile p := by
  induction a with
  | nil => simp
  | cons c t ih =>
    simp only [List.cons_append, List.takeWhile_cons, h c (by simp)]
    rw [if_pos trivial, ih (fun x hx => h x (by simp [hx]))]

theorem dropWhile_append_all {α : Type} {p : α → Bool} {a b : List α}
    (h : ∀ c ∈ a, p c = true) : (a ++ b).dropWhile p = b.dropWhile p := by
  induction a with
  | nil => simp
  | cons c t ih =>
    simp only [List.cons_append, List.dropWhile_cons, h c (by simp)]
    exact ih (fun x hx => h x (by simp [hx]))

theorem takeWhile_all {α : Type} {p : α → Bool} {a : List α}
    (h : ∀ c ∈ a, p c = true) : a.takeWhile p = a := by
  have := takeWhile_append_all (b := []) h
  simpa using this

theorem dropWhile_all {α : Type} {p : α → Bool} {a : List α}
    (h : ∀ c ∈ a, p c = true) : a.dropWhile p = [] := by
  have := dropWhile_append_all (b := []) h
  simpa using this

theorem dropWhile_append_ne_nil {α : Type} {p : α → Bool} {a b : List α}
    (h : a.dropWhile p ≠ []) : (a ++ b).dropWhile p = a.dropWhile p ++ b := by
  induction a with
  | nil => simp at h
  | cons c t ih =>
    by_cases hc : p c = true
    · simp only [List.dropWhile_cons, hc] at h ⊢
      simp only [if_true, List.cons_append, List.dropWhile_cons, hc, if_true]
      exact ih h
    · have hc' : p c = false := by
        cases hpc : p c
        · rfl
        · exact absurd hpc hc
      simp [List.dropWhile_cons, hc']

theorem decExp_spec {d k : ℕ} (h : decExp d = some k) : 10 ^ k % d = 0 := by
  have := List.find?_some h
  simpa using this

theorem decExp_pos {d k : ℕ} (hd : d ≠ 1) (h : decExp d = some k) : 0 < k := by
  rcases Nat.eq_zero_or_pos k with rfl | hk
  · exfalso
    have hs := decExp_spec h
    rw [pow_zero] at hs
    rcases d with _ | _ | n
    · simp at hs
    · exact hd rfl
    · rw [Nat.mod_eq_of_lt (by omega)] at hs
      omega
  · exact hk

theorem padZeros_digits {s : JStr} (h : ∀ c ∈ s, c.isDigit = true) (k : ℕ) :
    ∀ c ∈ padZeros s k, c.isDigit = true := by
  intro c hc
  rcases List.mem_append.1 hc with hm | hm
  · rw [List.eq_of_mem_replicate hm]
    rfl
  · exact h c hm

theorem parseFloat_nat (n : ℕ) : parseFloatOr0 (natToStr n) = (n : ℚ) := by
  rw [parseFloatOr0]
  simp only [takeWhile_all (natToStr_digits n), dropWhile_all (natToStr_digits n)]
  simp only [if_neg (natToStr_ne_nil n)]
  rw [digitsToNat_natToStr]

theorem parseFloat_decimal (a b k : ℕ) (hk : 0 < k) (hb : b < 10 ^ k) :
    parseFloatOr0 (natToStr a ++ '.' :: padZeros (natToStr b) k)
      = (a : ℚ) + (b : ℚ) / (10 : ℚ) ^ k := by
  have hAdig := natToStr_digits a
  have hBdig := padZeros_digits (natToStr_digits b) k
  have hdot : Char.isDigit '.' = false := rfl
  have hBlen : (padZeros (natToStr b) k).length = k := by
    rw [padZeros, List.length_append, List.length_replicate]
    have := natToStr_length_le hk hb
    omega
  rw [parseFloatOr0]
  simp only [takeWhile_append_all hAdig, dropWhile_append_all hAdig,
    List.takeWhile_cons, List.dropWhile_cons, hdot, Bool.false_eq_true, if_false,
    List.append_nil]
  simp only [takeWhile_all hBdig]
  rw [if_neg (fun hcon => natToStr_ne_nil a hcon.1)]
  rw [digitsToNat_natToStr, hBlen, padZeros, digitsToNat_replicate_zero,
    digitsToNat_natToStr]

theorem ratToStr_decomp (q : ℚ) (h1 : q.den ≠ 1) {k : ℕ} (hk : decExp q.den = some k) :
    ratToStr q = natToStr (q.num.toNat * 10 ^ k / q.den / 10 ^ k)
      ++ '.' :: padZeros (natToStr (q.num.toNat * 10 ^ k / q.den % 10 ^ k)) k := by
  simp only [ratToStr, if_neg h1, hk]

theorem toNat_cast_eq {q : ℚ} (h0 : 0 ≤ q) : ((q.num.toNat : ℕ) : ℚ) = (q.num : ℚ) := by
  exact_mod_cast congrArg (Int.cast : ℤ → ℚ) (Int.toNat_of_nonneg (Rat.num_nonneg.2 h0))

theorem parseFloat_ratToStr (q : ℚ) (h0 : 0 ≤ q) (hd : DecRenderable q = true) :
    parseFloatOr0 (ratToStr q) = q := by
  have hq : ((q.num.toNat : ℕ) : ℚ) / (q.den : ℚ) = q := by
    rw [toNat_cast_eq h0, Rat.num_div_den]
  by_cases hden1 : q.den = 1
  · rw [ratToStr, if_pos hden1, parseFloat_nat, toNat_cast_eq h0]
    conv_rhs => rw [← Rat.num_div_den q]
    rw [hden1]
    norm_num
  · rcases hk : decExp q.den with _ | k
    · rw [DecRenderable, hk] at hd
      simp at hd
    · have hdvd : q.den ∣ 10 ^ k := Nat.dvd_of_mod_eq_zero (decExp_spec hk)
      have hkpos : 0 < k := decExp_pos hden1 hk
      have hmden : q.num.toNat * 10 ^ k / q.den * q.den = q.num.toNat * 10 ^ k :=
        Nat.div_mul_cancel (Dvd.dvd.mul_left hdvd _)
      rw [ratToStr_decomp q hden1 hk,
        parseFloat_decimal _ _ k hkpos (Nat.mod_lt _ (by positivity))]
      have h10 : ((10 : ℚ)) ^ k ≠ 0 := by positivity
      have hdenQ : ((q.den : ℕ) : ℚ) ≠ 0 := by exact_mod_cast q.den_pos.ne'
      have key : ∀ m : ℕ, ((m / 10 ^ k : ℕ) : ℚ) + ((m % 10 ^ k : ℕ) : ℚ) / (10 : ℚ) ^ k
          = (m : ℚ) / (10 : ℚ) ^ k := by
        intro m
        rw [eq_div_iff h10, add_mul, div_mul_cancel₀ _ h10, mul_comm]
        exact_mod_cast Nat.div_add_mod m (10 ^ k)
      rw [key, div_eq_iff h10]
      conv_rhs => rw [← hq]
      rw [div_mul_eq_mul_div, eq_div_iff hdenQ]
      exact_mod_cast hmden

theorem dropWhile_all_false {α : Type} {p : α → Bool} {s : List α}
    (h : ∀ c ∈ s, p c = false) : s.dropWhile p = s := by
  cases s with
  | nil => rfl
  | cons c t => simp [List.dropWhile_cons, h c (by simp)]

theorem ltrim_eq_self {s : JStr} (h : ∀ c ∈ s.take 1, isWhite c = false) :
    ltrim s = s := by
  cases s with
  | nil => rfl
  | cons c t =>
    rw [ltrim, List.dropWhile_cons]
    simp [h c (by simp)]

theorem rtrim_eq_self_of_last {a : JStr} {c : Char} (h : isWhite c = false) :
    rtrim (a ++ [c]) = a ++ [c] := by
  rw [rtrim, List.reverse_append, List.reverse_singleton, List.singleton_append,
    List.dropWhile_cons]
  simp [h]

theorem rtrim_ne_nil_of_last {a : JStr} {c : Char} (h : isWhite c = false) :
    rtrim (a ++ [c]) ≠ [] := by
  rw [rtrim_eq_self_of_last h]
  simp

theorem rtrim_append {a b : JStr} (h : rtrim b ≠ []) :
    rtrim (a ++ b) = a ++ rtrim b := by
  have hb : b.reverse.dropWhile isWhite ≠ [] := by
    intro hcon
    apply h
    rw [rtrim, hcon, List.reverse_nil]
  rw [rtrim, List.reverse_append, dropWhile_append_ne_nil hb, List.reverse_append,
    List.reverse_reverse, rtrim]

theorem rtrim_append_white {s w : JStr} (h : ∀ c ∈ w, isWhite c = true) :
    rtrim (s ++ w) = rtrim s := by
  rw [rtrim, List.reverse_append, dropWhile_append_all (by simpa using h), rtrim]

theorem rtrim_eq_nil {s : JStr} : rtrim s = [] ↔ ∀ c ∈ s, isWhite c = true := by
  constructor
  · intro h c hc
    by_contra hcw
    have h1 : s.reverse.dropWhile isWhite = [] := by
      have := congrArg List.reverse h
      simpa [rtrim] using this
    have h2 := List.dropWhile_eq_nil_iff.1 h1 c (List.mem_reverse.2 hc)
    simp [h2] at hcw
  · intro h
    rw [rtrim, dropWhile_all (by simpa using h), List.reverse_nil]

theorem trim_cons_white {c : Char} {s : JStr} (h : isWhite c = true) :
    trim (c :: s) = trim s := by
  by_cases hs : rtrim s = []
  · have hw : ∀ x ∈ s, isWhite x = true := rtrim_eq_nil.1 hs
    have h1 : rtrim (c :: s) = [] := by
      apply rtrim_eq_nil.2
      intro x hx
      rcases List.mem_cons.1 hx with rfl | hx
      · exact h
      · exact hw x hx
    rw [trim, h1, trim, hs]
  · rw [trim, show (c :: s) = [c] ++ s from rfl, rtrim_append hs, trim]
    rw [List.singleton_append, ltrim, List.dropWhile_cons]
    simp [h, ltrim]

theorem trim_append_white {s w : JStr} (h : ∀ c ∈ w, isWhite c = true) :
    trim (s ++ w) = trim s := by
  rw [trim, rtrim_append_white h, trim]

theorem trim_eq_self_of_no_white {s : JStr} (h : ∀ c ∈ s, isWhite c = false) :
    trim s = s := by
  rw [trim, rtrim, dropWhile_all_false (by simpa using h), List.reverse_reverse,
    ltrim, dropWhile_all_false h]

theorem splitOnChar_not_mem {sep : Char} {a : JStr} (h : sep ∉ a) :
    splitOnChar sep a = [a] := by
  induction a with
  | nil => rfl
  | cons c t ih =>
    rw [splitOnChar]
    rw [if_neg (fun hc => h (by rw [← hc]; exact List.mem_cons_self c t))]
    rw [ih (fun hc => h (List.mem_cons_of_mem c hc))]

theorem splitOnChar_ne_nil (sep : Char) (a : JStr) : splitOnChar sep a ≠ [] := by
  cases a with
  | nil => simp [splitOnChar]
  | cons c t =>
    rw [splitOnChar]
    split
    · simp
    · split
      · simp
      · simp

theorem splitOnChar_append {sep : Char} {a b : JStr} (h : sep ∉ a) :
    splitOnChar sep (a ++ sep :: b) = a :: splitOnChar sep b := by
  induction a with
  | nil =>
    simp only [List.nil_append]
    rw [splitOnChar, if_pos rfl]
  | cons c t ih =>
    simp only [List.cons_append]
    rw [splitOnChar]
    rw [if_neg (fun hc => h (by rw [← hc]; exact List.mem_cons_self c t))]
    rw [ih (fun hc => h (List.mem_cons_of_mem c hc))]

/-! ## Helper lemmas for the store operations -/

theorem find?_to_findIndexJ {α : Type} {p : α → Bool} {l : List α} {x : α}
    (h : l.find? p = some x) :
    ∃ idx, findIndexJ p l = some idx ∧ l[idx]? = some x := by
  induction l with
  | nil => simp at h
  | cons a t ih =>
    by_cases hp : p a = true
    · rw [List.find?_cons_of_pos t hp] at h
      refine ⟨0, ?_, ?_⟩
      · rw [findIndexJ, if_pos hp]
      · simpa using h
    · rw [List.find?_cons_of_neg t hp] at h
      obtain ⟨idx, h1, h2⟩ := ih h
      refine ⟨idx + 1, ?_, by simpa using h2⟩
      rw [findIndexJ, if_neg hp, h1]
      rfl

theorem updateItem_found {st : StoreState} {id idx : ℕ} {cur : FoodItem}
    (hidx : findIndexJ (fun it => decide (it.id = id)) st.items = some idx)
    (hget : st.items[idx]? = some cur) (u : ItemUpdates) :
    updateItem st id u =
      (some (mergeItem cur u),
        { items := st.items.set idx (mergeItem cur u), saves := st.saves + 1,
          events := st.events ++ [(.itemUpdated, some (mergeItem cur u))] }) := by
  simp only [updateItem, hidx, hget]

theorem updateItem_no_index {st : StoreState} {id : ℕ}
    (hidx : findIndexJ (fun it => decide (it.id = id)) st.items = none)
    (u : ItemUpdates) : updateItem st id u = (none, st) := by
  simp only [updateItem, hidx]

theorem updateItem_no_entry {st : StoreState} {id idx : ℕ}
    (hidx : findIndexJ (fun it => decide (it.id = id)) st.items = some idx)
    (hget : st.items[idx]? = none) (u : ItemUpdates) :
    updateItem st id u = (none, st) := by
  simp only [updateItem, hidx, hget]

theorem mergeItem_amount (cur : FoodItem) (v : Amount) :
    mergeItem cur { amount := some v } = { cur with amount := v } := rfl

theorem mergeItem_category (cur : FoodItem) (c : JStr) :
    mergeItem cur { category := some c } = { cur with category := c } := rfl

/-! ## Claim theorems: status evaluator and item-level operations -/

/-- C3: the derived stock status follows the spec rules in order: for a
boolean item the flag decides in-stock versus out; otherwise a non-positive
amount is out; otherwise a set positive minimum at or above the amount gives
warning; otherwise normal. -/
theorem getStockStatus_rules (i : FoodItem) (q : ℚ) (b : Bool) :
    (i.unitType = .boolean → i.amount = .flag b →
      getStockStatus i = (if b then .inStock else .out))
    ∧ (i.unitType ≠ .boolean → i.amount = .num q → q ≤ 0 →
      getStockStatus i = .out)
    ∧ (i.unitType ≠ .boolean → i.amount = .num q → 0 < q →
      ∀ m, i.minimum = some m → 0 < m → q ≤ m → getStockStatus i = .warning)
    ∧ (i.unitType ≠ .boolean → i.amount = .num q → 0 < q →
      (∀ m, i.minimum = some m → ¬(0 < m ∧ q ≤ m)) →
      getStockStatus i = .normal) := by
  refine ⟨?_, ?_, ?_, ?_⟩
  · intro h hb
    rw [getStockStatus, if_pos h, hb]
    cases b <;> simp [amountTruthy]
  · intro h hq hle
    rw [getStockStatus, if_neg h]
    simp only [hq, amountNumOr0]
    rw [if_pos hle]
  · intro h hq hpos m hm hmpos hqm
    rw [getStockStatus, if_neg h]
    simp only [hq, amountNumOr0, hm]
    rw [if_neg (by exact not_le.2 hpos), if_pos ⟨hmpos, hqm⟩]
  · intro h hq hpos hmin
    rw [getStockStatus, if_neg h]
    simp only [hq, amountNumOr0]
    rw [if_neg (by exact not_le.2 hpos)]
    cases hm : i.minimum with
    | none => rfl
    | some m =>
      show (if 0 < m ∧ q ≤ m then StockStatus.warning else StockStatus.normal)
        = StockStatus.normal
      rw [if_neg (hmin m hm)]

theorem getStockStatus_rules_witness : getStockStatus cheeseItem = .warning :=
  (getStockStatus_rules cheeseItem (1/2) false).2.2.1 (by decide) rfl (by norm_num)
    1 rfl (by norm_num) (by norm_num)

/-- C4 (evaluation of the defect): `updateItem` can never clear an existing
minimum — whatever the update object contains (including a minimum property
that is absent or explicitly `undefined`, the only form of clearing request a
caller can send, and what EditItemModal sends after blanking the field or
switching the item to boolean), the merged record keeps a minimum. -/
theorem updateItem_minimum_never_cleared (st : StoreState) (id : ℕ)
    (u : ItemUpdates) (h : ∀ j ∈ st.items, j.minimum ≠ none) :
    ∀ r, (updateItem st id u).1 = some r → r.minimum ≠ none := by
  intro r hr
  cases hidx : findIndexJ (fun it => decide (it.id = id)) st.items with
  | none => rw [updateItem_no_index hidx] at hr; simp at hr
  | some idx =>
    cases hget : st.items[idx]? with
    | none => rw [updateItem_no_entry hidx hget] at hr; simp at hr
    | some cur =>
      rw [updateItem_found hidx hget] at hr
      simp only [Option.some.injEq] at hr
      subst hr
      have hcur : cur.minimum ≠ none := by
        refine h cur ?_
        have h2 := List.getElem?_eq_some_iff.1 hget
        obtain ⟨hlt, hEq⟩ := h2
        exact hEq ▸ List.getElem_mem hlt
      rw [mergeItem]
      cases hmin : u.minimum with
      | none => simpa [hmin] using hcur
      | some m => simp

theorem updateItem_minimum_never_cleared_witness :
    (∀ j ∈ ({ items := [c4Item], saves := 0, events := [] } : StoreState).items,
      j.minimum ≠ none) ∧
    ((updateItem { items := [c4Item], saves := 0, events := [] } 1
        { unitType := some .boolean, amount := some (.flag false) }).1.map
          FoodItem.minimum = some (some 1)) ∧
    (∀ r, (updateItem { items := [c4Item], saves := 0, events := [] } 1
        { unitType := some .boolean, amount := some (.flag false) }).1 = some r →
      r.minimum ≠ none) :=
  ⟨by decide, by decide,
    updateItem_minimum_never_cleared _ _ _ (by decide)⟩

/-- C5: on a numeric item `decreaseAmount` stores `max 0 (amount - by)`,
which is never negative; on a boolean item both amount mutators return null
and leave the store untouched. -/
theorem decreaseAmount_floor (st : StoreState) (id : ℕ) (i : FoodItem)
    (q amt : ℚ) (hfind : getItemS st id = some i) (_hamt : 0 < amt) :
    (i.unitType ≠ .boolean → i.amount = .num q →
      ∃ idx, findIndexJ (fun it => decide (it.id = id)) st.items = some idx ∧
        st.items[idx]? = some i ∧
        decreaseAmount st id amt =
          (some { i with amount := .num (max 0 (q - amt)) },
            { items := st.items.set idx { i with amount := .num (max 0 (q - amt)) },
              saves := st.saves + 1,
              events := st.events ++
                [(.itemUpdated, some { i with amount := .num (max 0 (q - amt)) })] }) ∧
        (0 : ℚ) ≤ max 0 (q - amt))
    ∧ (i.unitType = .boolean →
      decreaseAmount st id amt = (none, st) ∧ increaseAmount st id amt = (none, st)) := by
  constructor
  · intro hb hq
    obtain ⟨idx, hidx, hget⟩ := find?_to_findIndexJ hfind
    refine ⟨idx, hidx, hget, ?_, le_max_left 0 _⟩
    simp only [decreaseAmount, hfind]
    rw [if_neg hb, hq]
    rw [show amountAsNumber (Amount.num q) = q from rfl]
    rw [updateItem_found hidx hget, mergeItem_amount]
  · intro hb
    constructor
    · simp only [decreaseAmount, hfind]
      rw [if_pos hb]
    · simp only [increaseAmount, hfind]
      rw [if_pos hb]

theorem decreaseAmount_floor_witness :
    (getItemS { items := [c4Item], saves := 0, events := [] } 1 = some c4Item) ∧
    ((decreaseAmount { items := [c4Item], saves := 0, events := [] } 1 10).1.map
      (fun r => r.amount) = some (.num 0)) := by
  constructor
  · decide
  · have h := (decreaseAmount_floor { items := [c4Item], saves := 0, events := [] }
      1 c4Item 2 10 (by decide) (by norm_num)).1 (by decide) rfl
    obtain ⟨idx, _, _, heq, _⟩ := h
    rw [heq]
    norm_num

/-- C10: an item line whose content has no pipe field still parses, with
count unit type, amount 0, the default unit pcs, no minimum and no planned
restock, for every status character (the out-of-stock character leaves the
amount at 0). -/
theorem parseItemContent_no_amount_field (id : ℕ) (content cat : JStr)
    (c : Char) (h : '|' ∉ content) :
    parseItemContent id content cat c
      = some { id := id, name := trim content, category := cat,
               unitType := .count, amount := .num 0, unit := str "pcs",
               minimum := none, plannedRestock := false } := by
  rw [parseItemContent, splitOnChar_not_mem h]
  simp only [List.map_cons, List.map_nil, List.length_cons, List.length_nil]
  norm_num [scanExtras]
  intro _ _ hcb
  exact absurd hcb (by decide)

theorem parseItemContent_no_amount_field_witness :
    ('|' ∉ str "Milk") ∧
    parseItemContent 0 (str "Milk") [] '-'
      = some { id := 0, name := trim (str "Milk"), category := [],
               unitType := .count, amount := .num 0, unit := str "pcs",
               minimum := none, plannedRestock := false } :=
  ⟨by decide, parseItemContent_no_amount_field 0 (str "Milk") [] '-' (by decide)⟩

/-! ## Claim C2: batched category rename -/

theorem findIndexJ_eq_none {α : Type} {p : α → Bool} {l : List α} :
    findIndexJ p l = none ↔ ∀ a ∈ l, p a = false := by
  induction l with
  | nil => simp [findIndexJ]
  | cons a t ih =>
    rw [findIndexJ]
    by_cases hp : p a = true
    · simp [hp]
    · have hp' : p a = false := by
        cases hpa : p a
        · rfl
        · exact absurd hpa hp
      simp [hp', ih]

theorem applyMergeById_cons_ne {a : FoodItem} {t : List FoodItem} {id : ℕ}
    {u : ItemUpdates} (ha : ¬(a.id = id)) :
    applyMergeById (a :: t) id u = a :: applyMergeById t id u := by
  have hdec : decide (a.id = id) = false := by simpa using ha
  cases hfi : findIndexJ (fun it => decide (it.id = id)) t with
  | none =>
    simp only [applyMergeById, findIndexJ, hdec, Bool.false_eq_true, if_false, hfi]
    rfl
  | some idx =>
    simp only [applyMergeById, findIndexJ, hdec, Bool.false_eq_true, if_false, hfi,
      Option.map_some, List.getElem?_cons_succ]
    cases hget : t[idx]? with
    | none => simp [hget]
    | some cur => simp [hget, List.set_cons_succ]

theorem applyMergeById_eq_map {items : List FoodItem} {id : ℕ} {u : ItemUpdates}
    (hnd : (items.map FoodItem.id).Nodup) (hmem : id ∈ items.map FoodItem.id) :
    applyMergeById items id u
      = items.map (fun i => if i.id = id then mergeItem i u else i) := by
  induction items with
  | nil => simp at hmem
  | cons a t iht =>
    by_cases ha : a.id = id
    · have hdec : decide (a.id = id) = true := by simpa using ha
      have htail : ∀ i ∈ t, ¬(i.id = id) := by
        intro i hi hcon
        rw [List.map_cons] at hnd
        exact (List.nodup_cons.1 hnd).1
          (by rw [ha, ← hcon]; exact List.mem_map_of_mem FoodItem.id hi)
      have htmap : t.map (fun i => if i.id = id then mergeItem i u else i) = t := by
        calc t.map (fun i => if i.id = id then mergeItem i u else i)
            = t.map (fun i => i) :=
              List.map_congr_left (fun i hi => by rw [if_neg (htail i hi)])
          _ = t := List.map_id t
      simp only [applyMergeById, findIndexJ, hdec, if_true, List.getElem?_cons_zero,
        List.set_cons_zero, List.map_cons, if_pos ha, htmap]
    · have hmem' : id ∈ t.map FoodItem.id := by
        rw [List.map_cons] at hmem
        rcases List.mem_cons.1 hmem with h | h
        · exact absurd h.symm ha
        · exact h
      rw [applyMergeById_cons_ne ha, List.map_cons, if_neg ha]
      rw [iht (List.nodup_cons.1 (by simpa using hnd)).2 hmem']

theorem mergeItem_id (i : FoodItem) (u : ItemUpdates) :
    (mergeItem i u).id = i.id := rfl

theorem batchFold_map {ids : List ℕ} {items : List FoodItem} {u : ItemUpdates}
    (hnd : (items.map FoodItem.id).Nodup) (hids : ids.Nodup)
    (hsub : ∀ id ∈ ids, id ∈ items.map FoodItem.id) :
    (ids.map (fun id => (id, u))).foldl
        (fun acc p => applyMergeById acc p.1 p.2) items
      = items.map (fun i => if i.id ∈ ids then mergeItem i u else i) := by
  induction ids generalizing items with
  | nil =>
    simp
  | cons id1 rest ih =>
    simp only [List.map_cons, List.foldl_cons]
    rw [applyMergeById_eq_map hnd (hsub id1 (by simp))]
    have hidpres : (items.map (fun i => if i.id = id1 then mergeItem i u else i)).map
        FoodItem.id = items.map FoodItem.id := by
      rw [List.map_map]
      refine List.map_congr_left (fun i _ => ?_)
      by_cases hi : i.id = id1 <;> simp [hi, mergeItem_id]
    rw [ih (by rw [hidpres]; exact hnd) (List.nodup_cons.1 hids).2
      (fun id hid => by rw [hidpres]; exact hsub id (List.mem_cons_of_mem _ hid))]
    rw [List.map_map]
    refine List.map_congr_left (fun i _ => ?_)
    simp only [Function.comp]
    by_cases hi : i.id = id1
    · have hnotin : i.id ∉ rest := by
        rw [hi]
        exact (List.nodup_cons.1 hids).1
      rw [if_pos hi, show (mergeItem i u).id = i.id from rfl, if_neg hnotin,
        if_pos (by rw [hi]; exact List.mem_cons_self id1 rest)]
    · rw [if_neg hi]
      by_cases hr : i.id ∈ rest
      · rw [if_pos hr, if_pos (List.mem_cons_of_mem _ hr)]
      · rw [if_neg hr, if_neg (by
          intro hc
          rcases List.mem_cons.1 hc with h | h
          · exact hi h
          · exact hr h)]

/-- C2: renaming a category across the matching items issues exactly one
persistence call, rewrites the category of every matching item (and only
those), and emits one item-updated event per renamed item; and for any batch,
`updateItemsBatch` makes exactly one save and one event per listed pair. -/
theorem renameCategory_single_save (st : StoreState) (o n : JStr)
    (hnd : (st.items.map FoodItem.id).Nodup)
    (hex : ∃ i ∈ st.items, i.category = o) :
    (renameCategory st o n).saves = st.saves + 1
    ∧ (renameCategory st o n).items
        = st.items.map (fun i => if i.category = o then { i with category := n } else i)
    ∧ (renameCategory st o n).events.length
        = st.events.length
          + (st.items.filter (fun i => decide (i.category = o))).length
    ∧ (∀ us : List (ℕ × ItemUpdates),
        (updateItemsBatch st us).saves = st.saves + 1
        ∧ (updateItemsBatch st us).events.length = st.events.length + us.length) := by
  have hflt : 0 < ((st.items.filter (fun i => decide (i.category = o))).map
      (fun i => (i.id, ({ category := some n } : ItemUpdates)))).length := by
    obtain ⟨i, hi, hio⟩ := hex
    have hmem : i ∈ st.items.filter (fun i => decide (i.category = o)) :=
      List.mem_filter.2 ⟨hi, by simpa using hio⟩
    rcases hfe : st.items.filter (fun i => decide (i.category = o)) with _ | ⟨a, t⟩
    · rw [hfe] at hmem
      simp at hmem
    · rw [hfe]
      simp
  have hpairs : (st.items.filter (fun i => decide (i.category = o))).map
        (fun i => (i.id, ({ category := some n } : ItemUpdates)))
      = ((st.items.filter (fun i => decide (i.category = o))).map FoodItem.id).map
        (fun id => (id, ({ category := some n } : ItemUpdates))) := by
    rw [List.map_map]
    rfl
  have hndflt : ((st.items.filter (fun i => decide (i.category = o))).map
      FoodItem.id).Nodup :=
    hnd.sublist (List.Sublist.map FoodItem.id (List.filter_sublist st.items))
  have hsub : ∀ id ∈ (st.items.filter (fun i => decide (i.category = o))).map
      FoodItem.id, id ∈ st.items.map FoodItem.id := by
    intro id hid
    rcases List.mem_map.1 hid with ⟨j, hj, rfl⟩
    exact List.mem_map_of_mem _ (List.mem_of_mem_filter hj)
  have hinj := List.inj_on_of_nodup_map hnd
  have hitems : (renameCategory st o n).items
      = st.items.map
          (fun i => if i.category = o then { i with category := n } else i) := by
    rw [renameCategory]
    rw [if_pos hflt]
    rw [updateItemsBatch]
    simp only
    rw [hpairs, batchFold_map hnd hndflt hsub]
    refine List.map_congr_left (fun i hi => ?_)
    by_cases hio : i.category = o
    · rw [if_pos (List.mem_map_of_mem _ (List.mem_filter.2 ⟨hi, by simpa using hio⟩)),
        if_pos hio, mergeItem_category]
    · rw [if_neg hio, if_neg (by
        intro hc
        rcases List.mem_map.1 hc with ⟨j, hj, hji⟩
        have hj' := List.mem_of_mem_filter hj
        have hji' : j = i := hinj hj' hi hji
        subst hji'
        exact hio (by simpa using (List.mem_filter.1 hj).2))]
  refine ⟨?_, hitems, ?_, ?_⟩
  · rw [renameCategory, if_pos hflt, updateItemsBatch]
  · rw [renameCategory, if_pos hflt, updateItemsBatch]
    simp
  · intro us
    constructor
    · rw [updateItemsBatch]
    · rw [updateItemsBatch]
      simp

theorem renameCategory_single_save_witness :
    ((c2Store.items.map FoodItem.id).Nodup)
    ∧ (renameCategory c2Store (str "Dairy") (str "Fridge")).saves = c2Store.saves + 1
    ∧ (∀ i ∈ (renameCategory c2Store (str "Dairy") (str "Fridge")).items,
        i.category ≠ str "Dairy") := by
  have h := renameCategory_single_save c2Store (str "Dairy") (str "Fridge")
    (by decide) ⟨milkDairy, by decide, by decide⟩
  refine ⟨by decide, h.1, ?_⟩
  rw [h.2.1]
  decide

/-! ## Claim C7: deleteList -/

theorem findIndexJ_isSome {α : Type} {p : α → Bool} {l : List α}
    (h : ∃ a ∈ l, p a = true) : ∃ idx, findIndexJ p l = some idx := by
  cases hfi : findIndexJ p l with
  | none =>
    obtain ⟨a, ha, hpa⟩ := h
    rw [findIndexJ_eq_none.1 hfi a ha] at hpa
    cases hpa
  | some idx => exact ⟨idx, rfl⟩

theorem eraseIdx_findIndexJ {α : Type} {p : α → Bool} {l : List α} {idx : ℕ}
    (h : findIndexJ p l = some idx) : l.eraseIdx idx = l.eraseP p := by
  induction l generalizing idx with
  | nil => simp [findIndexJ] at h
  | cons a t ih =>
    rw [findIndexJ] at h
    by_cases hp : p a = true
    · rw [if_pos hp] at h
      injection h with h
      subst h
      rw [List.eraseP_cons_of_pos hp]
      rfl
    · rw [if_neg hp] at h
      cases hfi : findIndexJ p t with
      | none => rw [hfi] at h; simp at h
      | some j =>
        rw [hfi] at h
        simp at h
        subst h
        rw [List.eraseP_cons_of_neg (by simpa using hp)]
        rw [show (a :: t).eraseIdx (j + 1) = a :: t.eraseIdx j from rfl]
        rw [ih hfi]

theorem storesSet_keys (st : LMState) (id : ℕ) (s : MStore) :
    (storesSet st id s).stores.map Prod.fst = st.stores.map Prod.fst := by
  rw [storesSet]
  simp only [List.map_map]
  refine List.map_congr_left (fun p _ => ?_)
  by_cases hp : p.1 = id <;> simp [hp]

theorem storeLoad_ok {v : MVault} {s : MStore} (hro : v.readOk s.filePath = true) :
    ∃ s1, storeLoad v s = Except.ok s1 := by
  cases hlf : lookupFile v s.filePath with
  | some f =>
    refine ⟨{ s with items := parseMarkdown f.content }, ?_⟩
    rw [storeLoad, hlf, hro]
    simp
  | none =>
    refine ⟨{ s with items := [] }, ?_⟩
    rw [storeLoad, hlf]

theorem loadActive_ok (v : MVault) (st : LMState) (hro : ∀ p, v.readOk p = true) :
    ∃ st2, loadActive v st = Except.ok st2 ∧ st2.lists = st.lists
      ∧ st2.activeListId = st.activeListId
      ∧ st2.settingsSaves = st.settingsSaves
      ∧ st2.nextId = st.nextId
      ∧ st2.listEvents = st.listEvents
      ∧ (∀ k ∈ st2.stores.map Prod.fst,
          k ∈ st.stores.map Prod.fst ∨ st.activeListId = some k) := by
  cases ha : st.activeListId with
  | none =>
    refine ⟨st, ?_, rfl, ha, rfl, rfl, rfl, fun k hk => Or.inl hk⟩
    rw [loadActive, ha]
  | some a =>
    cases hgl : getListM st a with
    | none =>
      refine ⟨st, ?_, rfl, ha, rfl, rfl, rfl, fun k hk => Or.inl hk⟩
      rw [loadActive, ha]
      simp only [getStoreM, hgl]
    | some l =>
      cases hsg : storesGet st a with
      | some s =>
        obtain ⟨s1, hs1⟩ := storeLoad_ok (s := s) (hro _)
        refine ⟨storesSet st a s1, ?_,  rfl, ha, rfl, rfl, rfl, ?_⟩
        · rw [loadActive, ha]
          simp only [getStoreM, hgl, hsg, hs1]
        · intro k hk
          rw [storesSet_keys] at hk
          exact Or.inl hk
      | none =>
        obtain ⟨s1, hs1⟩ :=
          storeLoad_ok (s := { filePath := l.filePath, items := [] }) (hro _)
        refine ⟨storesSet { st with stores := st.stores ++
            [(a, { filePath := l.filePath, items := [] })] } a s1, ?_, rfl, ha,
          rfl, rfl, rfl, ?_⟩
        · rw [loadActive, ha]
          simp only [getStoreM, hgl, hsg, hs1]
          rw [ha]
        · intro k hk
          rw [storesSet_keys] at hk
          simp only [List.map_append, List.map_cons, List.map_nil,
            List.mem_append, List.mem_cons] at hk
          rcases hk with hk | hk
          · exact Or.inl hk
          · rcases hk with hk | hk
            · exact Or.inr (by rw [hk])
            · cases hk

theorem not_mem_map_eraseP {l : List MList} {id : ℕ}
    (hnd : (l.map MList.id).Nodup) :
    id ∉ (l.eraseP (fun x => decide (x.id = id))).map MList.id := by
  induction l with
  | nil => simp
  | cons a t ih =>
    rw [List.map_cons] at hnd
    by_cases ha : a.id = id
    · rw [List.eraseP_cons_of_pos (by simpa using ha)]
      intro hc
      exact (List.nodup_cons.1 hnd).1 (by rw [ha]; exact hc)
    · rw [List.eraseP_cons_of_neg (by simpa using ha)]
      intro hc
      rw [List.map_cons] at hc
      rcases List.mem_cons.1 hc with h | h
      · exact ha h.symm
      · exact ih (List.nodup_cons.1 hnd).2 h

/-- C7: deleting an existing list removes its descriptor and cached store,
switches the active pointer to the first remaining descriptor (or none)
exactly when the deleted list was active, persists the configuration once,
and returns the vault unchanged: the underlying document is never written or
deleted. -/
theorem deleteList_spec (v : MVault) (st : LMState) (id : ℕ)
    (hro : ∀ p, v.readOk p = true)
    (hnd : (st.lists.map MList.id).Nodup)
    (hmem : id ∈ st.lists.map MList.id) :
    ∃ st3, deleteList v st id = Except.ok (true, st3, v)
      ∧ st3.lists = st.lists.eraseP (fun l => decide (l.id = id))
      ∧ (∀ k ∈ st3.stores.map Prod.fst, k ≠ id)
      ∧ (st.activeListId = some id →
          st3.activeListId
            = (st.lists.eraseP (fun l => decide (l.id = id))).head?.map MList.id)
      ∧ (st.activeListId ≠ some id → st3.activeListId = st.activeListId)
      ∧ st3.settingsSaves = st.settingsSaves + 1 := by
  obtain ⟨l0, hl0, hl0id⟩ := List.mem_map.1 hmem
  obtain ⟨idx, hidx⟩ := findIndexJ_isSome
    (p := fun l => decide (l.id = id)) ⟨l0, hl0, by simpa using hl0id⟩
  have herase := eraseIdx_findIndexJ hidx
  have hkeys1 : ∀ k ∈ (st.stores.filter
      (fun p => decide (¬ p.1 = id))).map Prod.fst, k ≠ id := by
    intro k hk
    rcases List.mem_map.1 hk with ⟨p, hp, rfl⟩
    have hp2 := (List.mem_filter.1 hp).2
    simpa using hp2
  by_cases hact : st.activeListId = some id
  · have hheadid : ∀ k, ((st.lists.eraseP
        (fun l => decide (l.id = id))).head?.map MList.id) = some k → k ≠ id := by
      intro k hk hkid
      rw [hkid] at hk
      apply not_mem_map_eraseP hnd
      cases hh : (st.lists.eraseP (fun l => decide (l.id = id))).head? with
      | none => rw [hh] at hk; cases hk
      | some hd =>
        rw [hh] at hk
        simp at hk
        have hdmem : hd ∈ st.lists.eraseP (fun l => decide (l.id = id)) := by
          cases hel : st.lists.eraseP (fun l => decide (l.id = id)) with
          | nil => rw [hel] at hh; cases hh
          | cons x xs =>
            rw [hel] at hh
            simp only [List.head?_cons, Option.some.injEq] at hh
            rw [← hh]
            exact List.mem_cons_self x xs
        exact hk ▸ List.mem_map_of_mem MList.id hdmem
    obtain ⟨st2, hload, hlists2, hact2, hsaves2, _, _, hkeys2⟩ :=
      loadActive_ok v
        { st with
          lists := st.lists.eraseIdx idx,
          stores := st.stores.filter (fun p => decide (¬ p.1 = id)),
          activeListId := (st.lists.eraseIdx idx).head?.map MList.id }
        hro
    refine ⟨{ st2 with
        settingsSaves := st2.settingsSaves + 1,
        listEvents := st2.listEvents ++ [.deleted] }, ?_, ?_, ?_, ?_, ?_, ?_⟩
    · simp only [deleteList, hidx, if_pos hact, hload]
    · simpa [herase] using hlists2
    · intro k hk
      rcases hkeys2 k hk with h | h
      · exact hkeys1 k h
      · simp only at h
        rw [herase] at h
        exact hheadid k h
    · intro _
      simp only [hact2, herase]
    · intro hcon
      exact absurd hact hcon
    · simp only [hsaves2]
  · refine ⟨{ st with
        lists := st.lists.eraseIdx idx,
        stores := st.stores.filter (fun p => decide (¬ p.1 = id)),
        settingsSaves := st.settingsSaves + 1,
        listEvents := st.listEvents ++ [.deleted] }, ?_, ?_, ?_, ?_, ?_, ?_⟩
    · simp only [deleteList, hidx, if_neg hact]
    · simpa using herase
    · exact hkeys1
    · intro hcon
      exact absurd hcon hact
    · intro _
      rfl
    · rfl

theorem deleteList_spec_witness :
    ∃ st3, deleteList c7Vault c7State 1 = Except.ok (true, st3, c7Vault)
      ∧ st3.lists = c7State.lists.eraseP (fun l => decide (l.id = 1))
      ∧ (∀ k ∈ st3.stores.map Prod.fst, k ≠ 1)
      ∧ (c7State.activeListId = some 1 →
          st3.activeListId
            = (c7State.lists.eraseP (fun l => decide (l.id = 1))).head?.map MList.id)
      ∧ (c7State.activeListId ≠ some 1 → st3.activeListId = c7State.activeListId)
      ∧ st3.settingsSaves = c7State.settingsSaves + 1 :=
  deleteList_spec c7Vault c7State 1 (fun _ => rfl) (by decide) (by decide)

/-! ## Claim C8: createList -/

/-- C8: createList commits nothing on failure — when the validating load or
save fails, the call rejects and the configuration, store cache and active
pointer are exactly as before, the vault untouched — and on success the
descriptor is appended, the store cached, the configuration persisted once,
and the new list becomes active exactly when no list existed before. -/
theorem createList_atomic (v : MVault) (st : LMState) (name path : JStr) :
    ((((lookupFile v path).isSome ∧ v.readOk path = false) ∨
        (((lookupFile v path).isSome → v.readOk path = true) ∧
          v.writeOk path = false)) →
      (createList v st name path).1 = Except.error ()
        ∧ (createList v st name path).2.1.lists = st.lists
        ∧ (createList v st name path).2.1.stores = st.stores
        ∧ (createList v st name path).2.1.activeListId = st.activeListId
        ∧ (createList v st name path).2.1.settingsSaves = st.settingsSaves
        ∧ (createList v st name path).2.2 = v)
    ∧ (((lookupFile v path).isSome → v.readOk path = true) →
        v.writeOk path = true →
      ∃ store1,
        (createList v st name path).1
          = Except.ok { id := st.nextId, name := name, filePath := path }
        ∧ (createList v st name path).2.1.lists
            = st.lists ++ [{ id := st.nextId, name := name, filePath := path }]
        ∧ (createList v st name path).2.1.stores
            = st.stores ++ [(st.nextId, store1)]
        ∧ (st.lists = [] →
            (createList v st name path).2.1.activeListId = some st.nextId)
        ∧ (st.lists ≠ [] →
            (createList v st name path).2.1.activeListId = st.activeListId)
        ∧ (createList v st name path).2.1.settingsSaves
            = st.settingsSaves + 1) := by
  constructor
  · rintro (⟨hsome, hro⟩ | ⟨hro, hwo⟩)
    · cases hlf : lookupFile v path with
      | none => rw [hlf] at hsome; cases hsome
      | some f =>
        have hload : storeLoad v ({ filePath := path, items := [] } : MStore)
            = Except.error () := by
          rw [storeLoad]
          simp only [hlf, hro, Bool.false_eq_true, if_false]
        simp [createList, hload]
    · have hsave : ∀ s : MStore, s.filePath = path →
          storeSave v s = Except.error () := by
        intro s hs
        rw [storeSave, hs, hwo]
        simp
      cases hlf : lookupFile v path with
      | none =>
        have hload : storeLoad v ({ filePath := path, items := [] } : MStore)
            = Except.ok { filePath := path, items := [] } := by
          rw [storeLoad]
          simp only [hlf]
        simp [createList, hload,
          hsave ({ filePath := path, items := [] } : MStore) rfl]
      | some f =>
        have hro' : v.readOk path = true := hro (by rw [hlf]; rfl)
        have hload : storeLoad v ({ filePath := path, items := [] } : MStore)
            = Except.ok { filePath := path, items := parseMarkdown f.content } := by
          rw [storeLoad]
          simp only [hlf, hro', if_true]
        simp [createList, hload,
          hsave ({ filePath := path, items := parseMarkdown f.content } : MStore) rfl]
  · intro hro hwo
    have hmain : ∀ store1 : MStore, store1.filePath = path →
        storeLoad v ({ filePath := path, items := [] } : MStore)
          = Except.ok store1 →
        ∃ s1,
        (createList v st name path).1
          = Except.ok { id := st.nextId, name := name, filePath := path }
        ∧ (createList v st name path).2.1.lists
            = st.lists ++ [{ id := st.nextId, name := name, filePath := path }]
        ∧ (createList v st name path).2.1.stores
            = st.stores ++ [(st.nextId, s1)]
        ∧ (st.lists = [] →
            (createList v st name path).2.1.activeListId = some st.nextId)
        ∧ (st.lists ≠ [] →
            (createList v st name path).2.1.activeListId = st.activeListId)
        ∧ (createList v st name path).2.1.settingsSaves
            = st.settingsSaves + 1 := by
      intro store1 hsp hload
      have hsave : storeSave v store1
          = Except.ok (writeFile v store1.filePath (toMarkdown 1 modelDate store1.items)) := by
        rw [storeSave, hsp, hwo]
        simp
      refine ⟨store1, ?_, ?_, ?_, ?_, ?_, ?_⟩
      · simp only [createList, hload, hsave]
      · simp only [createList, hload, hsave]
        split <;> rfl
      · simp only [createList, hload, hsave]
        split <;> rfl
      · intro hnil
        have hlen : (st.lists ++
            [({ id := st.nextId, name := name, filePath := path } : MList)]).length
              = 1 := by
          rw [hnil]
          rfl
        simp only [createList, hload, hsave, hlen]
        simp
      · intro hne
        have hlen : ¬ (st.lists ++
            [({ id := st.nextId, name := name, filePath := path } : MList)]).length
              = 1 := by
          rw [List.length_append]
          cases hc : st.lists with
          | nil => exact absurd hc hne
          | cons x xs => simp
        simp only [createList, hload, hsave, if_neg hlen]
      · simp only [createList, hload, hsave]
        split <;> rfl
    cases hlf : lookupFile v path with
    | none =>
      exact hmain { filePath := path, items := [] } rfl
        (by rw [storeLoad]; simp only [hlf])
    | some f =>
      have hro' : v.readOk path = true := hro (by rw [hlf]; rfl)
      exact hmain { filePath := path, items := parseMarkdown f.content } rfl
        (by rw [storeLoad]; simp only [hlf, hro', if_true])

theorem createList_atomic_witness :
    ((createList c8VaultRO c7State (str "c") (str "c.md")).1 = Except.error ()
      ∧ (createList c8VaultRO c7State (str "c") (str "c.md")).2.1.lists
          = c7State.lists
      ∧ (createList c8VaultRO c7State (str "c") (str "c.md")).2.1.stores
          = c7State.stores
      ∧ (createList c8VaultRO c7State (str "c") (str "c.md")).2.1.activeListId
          = c7State.activeListId
      ∧ (createList c8VaultRO c7State (str "c") (str "c.md")).2.1.settingsSaves
          = c7State.settingsSaves
      ∧ (createList c8VaultRO c7State (str "c") (str "c.md")).2.2 = c8VaultRO)
    ∧ (∃ store1,
        (createList c7Vault c7State (str "c") (str "c.md")).1
          = Except.ok { id := c7State.nextId, name := str "c",
                        filePath := str "c.md" }
        ∧ (createList c7Vault c7State (str "c") (str "c.md")).2.1.lists
            = c7State.lists ++ [{ id := c7State.nextId, name := str "c",
                                  filePath := str "c.md" }]
        ∧ (createList c7Vault c7State (str "c") (str "c.md")).2.1.stores
            = c7State.stores ++ [(c7State.nextId, store1)]
        ∧ (c7State.lists = [] →
            (createList c7Vault c7State (str "c") (str "c.md")).2.1.activeListId
              = some c7State.nextId)
        ∧ (c7State.lists ≠ [] →
            (createList c7Vault c7State (str "c") (str "c.md")).2.1.activeListId
              = c7State.activeListId)
        ∧ (createList c7Vault c7State (str "c") (str "c.md")).2.1.settingsSaves
            = c7State.settingsSaves + 1) :=
  ⟨(createList_atomic c8VaultRO c7State (str "c") (str "c.md")).1
      (Or.inr ⟨fun _ => rfl, rfl⟩),
    (createList_atomic c7Vault c7State (str "c") (str "c.md")).2
      (fun _ => rfl) rfl⟩

/-! ## Claim C9: discovery idempotence -/

theorem find?_isSome_of_mem {α : Type} {p : α → Bool} {l : List α} {x : α}
    (hx : x ∈ l) (hp : p x = true) : (l.find? p).isSome = true := by
  induction l with
  | nil => cases hx
  | cons a t ih =>
    by_cases hp' : p a = true
    · rw [List.find?_cons_of_pos t hp']
      rfl
    · rw [List.find?_cons_of_neg t hp']
      rcases List.mem_cons.1 hx with rfl | hx'
      · exact absurd hp hp'
      · exact ih hx'

theorem fileExists_of_memFile {v : MVault} {f : MFile} (h : f ∈ v.files) :
    fileExists v f.path = true := by
  rw [fileExists, lookupFile]
  rw [show (Option.isSome (v.files.find? (fun g => decide (g.path = f.path))))
      = true from find?_isSome_of_mem h (by simp)]

theorem syncAddStep_lists_mono {acc : LMState × Bool} {f : MFile} {l : MList}
    (h : l ∈ acc.1.lists) : l ∈ (syncAddStep acc f).1.lists := by
  rw [syncAddStep]
  split
  · exact h
  · simp only
    exact List.mem_append.2 (Or.inl h)

theorem syncAddFold_lists_mono {fs : List MFile} {acc : LMState × Bool} {l : MList}
    (h : l ∈ acc.1.lists) : l ∈ (fs.foldl syncAddStep acc).1.lists := by
  induction fs generalizing acc with
  | nil => exact h
  | cons f rest ih => exact ih (syncAddStep_lists_mono h)

theorem syncAddStep_covers (acc : LMState × Bool) (f : MFile) :
    ∃ l ∈ (syncAddStep acc f).1.lists, l.filePath = f.path := by
  rw [syncAddStep]
  cases hfind : acc.1.lists.find? (fun l => decide (l.filePath = f.path)) with
  | some l =>
    rw [if_pos (show (Option.some l).isSome = true from rfl)]
    refine ⟨l, List.mem_of_find?_eq_some hfind, ?_⟩
    have hp := List.find?_some hfind
    simpa using hp
  | none =>
    rw [if_neg (show ¬ ((Option.none : Option MList).isSome = true) from by simp)]
    refine ⟨{ id := acc.1.nextId, name := basenameOf f.path, filePath := f.path },
      List.mem_append.2 (Or.inr (by simp)), rfl⟩

theorem syncAddFold_covers {fs : List MFile} {acc : LMState × Bool} :
    ∀ f ∈ fs, ∃ l ∈ (fs.foldl syncAddStep acc).1.lists, l.filePath = f.path := by
  induction fs generalizing acc with
  | nil => intro f hf; cases hf
  | cons g rest ih =>
    intro f hf
    rw [List.foldl_cons]
    rcases List.mem_cons.1 hf with rfl | hf
    · obtain ⟨l, hl, hlp⟩ := syncAddStep_covers acc f
      exact ⟨l, syncAddFold_lists_mono hl, hlp⟩
    · exact ih f hf

theorem syncAddStep_lists_src {acc : LMState × Bool} {f : MFile} {l : MList}
    (h : l ∈ (syncAddStep acc f).1.lists) :
    l ∈ acc.1.lists ∨ l.filePath = f.path := by
  rw [syncAddStep] at h
  by_cases hfind : (acc.1.lists.find?
      (fun l => decide (l.filePath = f.path))).isSome = true
  · rw [if_pos hfind] at h
    exact Or.inl h
  · rw [if_neg hfind] at h
    simp only at h
    rcases List.mem_append.1 h with h1 | h1
    · exact Or.inl h1
    · simp only [List.mem_singleton] at h1
      subst h1
      exact Or.inr rfl

theorem syncAddFold_lists_src {fs : List MFile} {acc : LMState × Bool} {l : MList}
    (h : l ∈ (fs.foldl syncAddStep acc).1.lists) :
    l ∈ acc.1.lists ∨ ∃ f ∈ fs, l.filePath = f.path := by
  induction fs generalizing acc with
  | nil => exact Or.inl h
  | cons g rest ih =>
    rw [List.foldl_cons] at h
    rcases ih h with h1 | h1
    · rcases syncAddStep_lists_src h1 with h2 | h2
      · exact Or.inl h2
      · exact Or.inr ⟨g, by simp, h2⟩
    · obtain ⟨f, hf, hfp⟩ := h1
      exact Or.inr ⟨f, List.mem_cons_of_mem _ hf, hfp⟩

theorem syncAddFold_id {fs : List MFile} {acc : LMState × Bool}
    (h : ∀ f ∈ fs, (acc.1.lists.find?
      (fun l => decide (l.filePath = f.path))).isSome = true) :
    fs.foldl syncAddStep acc = acc := by
  induction fs with
  | nil => rfl
  | cons g rest ih =>
    rw [List.foldl_cons, syncAddStep, if_pos (h g (by simp))]
    exact ih (fun f hf => h f (List.mem_cons_of_mem _ hf))

theorem syncRemovePhase_noop {v : MVault} {st : LMState}
    (h : ∀ l ∈ st.lists, fileExists v l.filePath = true) :
    syncRemovePhase v st = (st, false) := by
  have hfil : st.lists.filter (fun l => !fileExists v l.filePath) = [] := by
    rw [List.filter_eq_nil_iff]
    intro l hl
    rw [h l hl]
    simp
  rw [syncRemovePhase, hfil]
  simp

theorem syncRemove_exists (v : MVault) (st : LMState) :
    ∀ l ∈ (syncRemovePhase v st).1.lists, fileExists v l.filePath = true := by
  intro l hl
  rw [syncRemovePhase] at hl
  by_cases hr : ((st.lists.filter
      (fun l => !fileExists v l.filePath)).map MList.id) ≠ []
  · rw [if_pos hr] at hl
    simp only at hl
    have h2 := List.mem_filter.1 hl
    by_contra hex
    have hfalse : fileExists v l.filePath = false := by
      cases hfe : fileExists v l.filePath
      · rfl
      · exact absurd hfe hex
    have hmem1 : l ∈ st.lists.filter (fun l => !fileExists v l.filePath) :=
      List.mem_filter.2 ⟨h2.1, by rw [hfalse]; rfl⟩
    have hmem2 : l.id ∈ (st.lists.filter
        (fun l => !fileExists v l.filePath)).map MList.id :=
      List.mem_map_of_mem _ hmem1
    have h3 := h2.2
    simp only [decide_eq_true_eq] at h3
    exact h3 hmem2
  · rw [if_neg hr] at hl
    have hflt : st.lists.filter (fun l => !fileExists v l.filePath) = [] := by
      by_contra hne
      apply hr
      intro hmapnil
      exact hne (List.map_eq_nil_iff.1 hmapnil)
    have := List.filter_eq_nil_iff.1 hflt l hl
    cases hfe : fileExists v l.filePath
    · rw [hfe] at this
      simp at this
    · rfl

theorem syncActivatePhase_lists (acc : LMState × Bool) :
    (syncActivatePhase acc).1.lists = acc.1.lists := by
  rw [syncActivatePhase]
  split <;> rfl

theorem syncActivatePhase_inv (acc : LMState × Bool) :
    (syncActivatePhase acc).1.activeListId = none →
      (syncActivatePhase acc).1.lists = [] := by
  rw [syncActivatePhase]
  split
  · next hcond =>
    intro h
    exfalso
    obtain ⟨hlen, _⟩ := hcond
    simp only at h
    cases hc : acc.1.lists with
    | nil => rw [hc] at hlen; simp at hlen
    | cons x xs =>
      rw [hc] at h
      simp at h
  · next hcond =>
    intro h
    by_contra hne
    apply hcond
    constructor
    · cases hc : acc.1.lists with
      | nil => exact absurd hc hne
      | cons x xs => simp
    · exact h

theorem sync_lists_eq (v : MVault) (st : LMState) :
    (syncDiscoveredFiles v st).lists
      = (syncActivatePhase ((discoverInventoryFiles v).foldl syncAddStep
          (syncRemovePhase v st))).1.lists := by
  rw [syncDiscoveredFiles]
  split <;> rfl

theorem sync_active_eq (v : MVault) (st : LMState) :
    (syncDiscoveredFiles v st).activeListId
      = (syncActivatePhase ((discoverInventoryFiles v).foldl syncAddStep
          (syncRemovePhase v st))).1.activeListId := by
  rw [syncDiscoveredFiles]
  split <;> rfl

theorem sync_establishes (v : MVault) (st : LMState) :
    (∀ l ∈ (syncDiscoveredFiles v st).lists, fileExists v l.filePath = true)
    ∧ (∀ f ∈ discoverInventoryFiles v,
        ∃ l ∈ (syncDiscoveredFiles v st).lists, l.filePath = f.path)
    ∧ ((syncDiscoveredFiles v st).activeListId = none →
        (syncDiscoveredFiles v st).lists = []) := by
  refine ⟨?_, ?_, ?_⟩
  · intro l hl
    rw [sync_lists_eq, syncActivatePhase_lists] at hl
    rcases syncAddFold_lists_src hl with h1 | h1
    · exact syncRemove_exists v st l h1
    · obtain ⟨f, hf, hfp⟩ := h1
      rw [hfp]
      exact fileExists_of_memFile (List.mem_of_mem_filter hf)
  · intro f hf
    obtain ⟨l, hl, hlp⟩ := syncAddFold_covers f hf
    refine ⟨l, ?_, hlp⟩
    rw [sync_lists_eq, syncActivatePhase_lists]
    exact hl
  · intro h
    rw [sync_active_eq] at h
    rw [sync_lists_eq]
    exact syncActivatePhase_inv _ h

theorem sync_noop {v : MVault} {st : LMState}
    (hA : ∀ l ∈ st.lists, fileExists v l.filePath = true)
    (hB : ∀ f ∈ discoverInventoryFiles v, ∃ l ∈ st.lists, l.filePath = f.path)
    (hC : st.activeListId = none → st.lists = []) :
    syncDiscoveredFiles v st = st := by
  have h1 : syncRemovePhase v st = (st, false) := syncRemovePhase_noop hA
  have h2 : (discoverInventoryFiles v).foldl syncAddStep (st, false) = (st, false) := by
    apply syncAddFold_id
    intro f hf
    obtain ⟨l, hl, hlp⟩ := hB f hf
    exact find?_isSome_of_mem hl (by simpa using hlp)
  have h3 : syncActivatePhase (st, false) = (st, false) := by
    rw [syncActivatePhase]
    rw [if_neg]
    rintro ⟨hlen, hact⟩
    rw [hC hact] at hlen
    simp at hlen
  rw [syncDiscoveredFiles, h1, h2, h3]
  rfl

/-- C9: initialize is idempotent — with no external document change, a
second initialize (discovery sync plus active-store load) leaves the
descriptor list unchanged (so nothing is added or removed and no duplicate
descriptor appears for an already-listed path), keeps the active pointer,
and persists no configuration change. -/
theorem initialize_idempotent (v : MVault) (st : LMState)
    (hro : ∀ p, v.readOk p = true) {st1 st2 : LMState}
    (h1 : initializeM v st = Except.ok st1)
    (h2 : initializeM v st1 = Except.ok st2) :
    st2.lists = st1.lists ∧ st2.activeListId = st1.activeListId
      ∧ st2.settingsSaves = st1.settingsSaves := by
  obtain ⟨stA, hla, hlists, hact, hsaves, _, _, _⟩ :=
    loadActive_ok v (syncDiscoveredFiles v st) hro
  rw [initializeM, hla] at h1
  injection h1 with h1
  subst h1
  obtain ⟨hA0, hB0, hC0⟩ := sync_establishes v st
  have hA : ∀ l ∈ stA.lists, fileExists v l.filePath = true := by
    rw [hlists]
    exact hA0
  have hB : ∀ f ∈ discoverInventoryFiles v, ∃ l ∈ stA.lists, l.filePath = f.path := by
    rw [hlists]
    exact hB0
  have hC : stA.activeListId = none → stA.lists = [] := by
    rw [hact, hlists]
    exact hC0
  have hsync2 : syncDiscoveredFiles v stA = stA := sync_noop hA hB hC
  obtain ⟨stB, hla2, hlists2, hact2, hsaves2, _, _, _⟩ := loadActive_ok v stA hro
  rw [initializeM, hsync2, hla2] at h2
  injection h2 with h2
  subst h2
  exact ⟨hlists2, hact2, hsaves2⟩

theorem initialize_idempotent_witness :
    initializeM c7Vault c9Start = Except.ok c9Mid
    ∧ initializeM c7Vault c9Mid = Except.ok c9Mid
    ∧ (c9Mid.lists = c9Mid.lists ∧ c9Mid.activeListId = c9Mid.activeListId
        ∧ c9Mid.settingsSaves = c9Mid.settingsSaves) := by
  have h1 : initializeM c7Vault c9Start = Except.ok c9Mid := by rfl
  have h2 : initializeM c7Vault c9Mid = Except.ok c9Mid := by rfl
  exact ⟨h1, h2, initialize_idempotent c7Vault c9Start (fun _ => rfl) h1 h2⟩

/-- C6: counterexample to the claim as stated.  The projections do not hand
out independent copies of the records: the spread in getItems copies the
array but not the records inside it, so a caller writing a field through a
record obtained from getItems() changes the store s in-memory item list (and
what every later projection call returns). -/
theorem getItems_shares_records :
    0 ∈ getItemsRefs c6Refs ∧
    storeItems (writeNameR c6Refs 0 (str "x")) ≠ storeItems c6Refs := by
  decide

/-- C6 (amended): the projections return fresh containers but share the
underlying records.  Whenever getItem(id) finds a reference r, that reference
is live — it dereferences to a record carrying the requested id — and a
caller-side `record.name = nm` through it leaves the store s private array
untouched yet lands in the store s item list: afterwards the item list is the
old one with exactly the record at reference r renamed, visible to every
later projection call. -/
theorem projections_share_live_records (s : RefStore) (id r : ℕ) (nm : JStr)
    (hr : getItemRef s id = some r) :
    (writeNameR s r nm).itemRefs = s.itemRefs ∧
    (∃ it, derefR s r = some it ∧ it.id = id) ∧
    storeItems (writeNameR s r nm) =
      s.itemRefs.filterMap (fun q =>
        (derefR s q).map (fun u => if q = r then { u with name := nm } else u)) := by
  have hpred := List.find?_some hr
  cases hit : derefR s r with
  | none =>
    rw [hit] at hpred
    simp at hpred
  | some it =>
    rw [hit] at hpred
    simp at hpred
    have hit2 : s.heap[r]? = some it := hit
    have hrlt : r < s.heap.length := by
      by_contra hc
      rw [List.getElem?_eq_none (Nat.le_of_not_lt hc)] at hit2
      exact Option.noConfusion hit2
    have hw : writeNameR s r nm =
        { s with heap := s.heap.set r { it with name := nm } } := by
      simp only [writeNameR, hit2]
    refine ⟨by rw [hw], ⟨it, rfl, hpred⟩, ?_⟩
    rw [hw]
    unfold storeItems
    apply List.filterMap_congr
    intro q hq
    by_cases hqr : q = r
    · subst hqr
      show (s.heap.set q { it with name := nm })[q]? =
        (derefR s q).map (fun u => if q = q then { u with name := nm } else u)
      rw [List.getElem?_set_self hrlt, hit]
      simp
    · show (s.heap.set r { it with name := nm })[q]? =
        (derefR s q).map (fun u => if q = r then { u with name := nm } else u)
      rw [List.getElem?_set_ne (Ne.symm hqr)]
      simp only [derefR]
      cases s.heap[q]? <;> simp [hqr]

/-- Concrete instance of the amended C6 theorem: the single record of c6Refs,
found by getItem at its own id, renamed through the returned reference. -/
theorem projections_share_live_records_witness :
    getItemRef c6Refs 0 = some 0 ∧
    ((writeNameR c6Refs 0 (str "x")).itemRefs = c6Refs.itemRefs ∧
     (∃ it, derefR c6Refs 0 = some it ∧ it.id = 0) ∧
     storeItems (writeNameR c6Refs 0 (str "x")) =
       c6Refs.itemRefs.filterMap (fun q =>
         (derefR c6Refs q).map (fun u =>
           if q = 0 then { u with name := str "x" } else u))) :=
  ⟨by decide, projections_share_live_records c6Refs 0 0 (str "x") (by decide)⟩

/-- C1: counterexample to the round-trip claim as stated.  The item set
[milkL] satisfies every data-model invariant and the inference heuristic is
idempotent on it (inferUnitType 2 "l" = volume), yet the parse of its
serialization does not return the same unit: parseItemContent lowercases the
whole amount field, so the stored unit "L" comes back as "l". -/
theorem roundtrip_unit_lowercased :
    (parseMarkdown (toMarkdown 1 (str "2024-01-01") [milkL])).map FoodItem.unit ≠
      [milkL].map FoodItem.unit := by
  decide

/-! ## Character classes under lowercasing and trimming (for the round trip) -/

theorem char_eq_of_toNat {c d : Char} (h : c.toNat = d.toNat) : c = d := by
  have hc := Char.ofNat_toNat c
  rw [h] at hc
  rw [← hc, Char.ofNat_toNat]

theorem char_toNat_of_eq {c d : Char} (h : c = d) : c.toNat = d.toNat := by rw [h]

theorem isWhite_false_of_toNat {c : Char} (h : c.toNat ≠ 32 ∧ c.toNat ≠ 9 ∧
    c.toNat ≠ 10 ∧ c.toNat ≠ 13) : isWhite c = false := by
  rw [isWhite]
  simp only [Bool.or_eq_false_iff, decide_eq_false_iff_not]
  exact ⟨⟨⟨fun he => h.1 (char_toNat_of_eq he), fun he => h.2.1 (char_toNat_of_eq he)⟩,
    fun he => h.2.2.1 (char_toNat_of_eq he)⟩, fun he => h.2.2.2 (char_toNat_of_eq he)⟩

theorem numChar_cases {c : Char} (h : isNumChar c = true) :
    (48 ≤ c.toNat ∧ c.toNat ≤ 57) ∨ c.toNat = 46 := by
  rw [isNumChar] at h
  rcases (by simpa using h : c.isDigit = true ∨ c = '.') with hd | hdot
  · left
    simpa [Char.isDigit] using hd
  · right
    rw [hdot]
    rfl

theorem numChar_not_white {c : Char} (h : isNumChar c = true) : isWhite c = false := by
  rcases numChar_cases h with hb | he <;>
    exact isWhite_false_of_toNat ⟨by omega, by omega, by omega, by omega⟩

theorem numChar_ne {c d : Char} (h : isNumChar c = true)
    (hd : d.toNat = 47 ∨ d.toNat < 46 ∨ 58 ≤ d.toNat) : c ≠ d := by
  intro he
  have he2 := char_toNat_of_eq he
  rcases numChar_cases h with hb | h46 <;> omega

theorem lowerChar_numChar {c : Char} (h : isNumChar c = true) : lowerChar c = c := by
  rw [lowerChar, if_neg]
  rintro ⟨h1, _⟩
  rw [Char.le_def] at h1
  have h1n : 65 ≤ c.toNat := h1
  rcases numChar_cases h with hb | h46 <;> omega

theorem lowerChar_toNat (c : Char) : (lowerChar c).toNat =
    if 65 ≤ c.toNat ∧ c.toNat ≤ 90 then c.toNat + 32 else c.toNat := by
  rw [lowerChar]
  by_cases hc : 'A' ≤ c ∧ c ≤ 'Z'
  · rw [if_pos hc]
    obtain ⟨h1, h2⟩ := hc
    rw [Char.le_def] at h1 h2
    have h1n : 65 ≤ c.toNat := h1
    have h2n : c.toNat ≤ 90 := h2
    rw [if_pos ⟨h1n, h2n⟩]
    have hv : (c.toNat + 32).isValidChar := Or.inl (by omega)
    rw [Char.ofNat, dif_pos hv]
    rfl
  · rw [if_neg hc, if_neg]
    rintro ⟨a, b⟩
    exact hc ⟨by rw [Char.le_def]; exact a, by rw [Char.le_def]; exact b⟩

theorem lowerChar_white (c : Char) : isWhite (lowerChar c) = isWhite c := by
  by_cases hc : 65 ≤ c.toNat ∧ c.toNat ≤ 90
  · have ht : (lowerChar c).toNat = c.toNat + 32 := by rw [lowerChar_toNat, if_pos hc]
    rw [isWhite_false_of_toNat ⟨by omega, by omega, by omega, by omega⟩,
      isWhite_false_of_toNat (c := c) ⟨by omega, by omega, by omega, by omega⟩]
  · have ht : (lowerChar c).toNat = c.toNat := by rw [lowerChar_toNat, if_neg hc]
    rw [char_eq_of_toNat ht]

theorem toLowerStr_append (a b : JStr) :
    toLowerStr (a ++ b) = toLowerStr a ++ toLowerStr b := by
  simp [toLowerStr]

theorem toLowerStr_numChars {s : JStr} (h : ∀ c ∈ s, isNumChar c = true) :
    toLowerStr s = s := by
  induction s with
  | nil => rfl
  | cons c t ih =>
    simp only [toLowerStr, List.map_cons]
    rw [lowerChar_numChar (h c (by simp))]
    have := ih (fun x hx => h x (by simp [hx]))
    rw [toLowerStr] at this
    rw [this]

theorem ltrim_toLower (s : JStr) : ltrim (toLowerStr s) = toLowerStr (ltrim s) := by
  rw [ltrim, ltrim, toLowerStr, toLowerStr, List.dropWhile_map]
  congr 1
  have hf : (isWhite ∘ lowerChar) = isWhite := funext fun c => lowerChar_white c
  rw [hf]

theorem rtrim_idem (s : JStr) : rtrim (rtrim s) = rtrim s := by
  rw [rtrim, rtrim, List.reverse_reverse, List.dropWhile_idempotent]

theorem trim_rtrim (s : JStr) : trim (rtrim s) = trim s := by
  rw [trim, trim, rtrim_idem]

theorem mem_of_mem_rtrim {c : Char} {s : JStr} (h : c ∈ rtrim s) : c ∈ s := by
  rw [rtrim, List.mem_reverse] at h
  have hsub := (List.dropWhile_sublist (l := s.reverse) (p := isWhite)).subset h
  rw [List.mem_reverse] at hsub
  exact hsub

/-! ## Pipe-joined segments: the serializer writes fields as `a | b | c` -/

theorem isNumChar_of_digit {c : Char} (h : c.isDigit = true) : isNumChar c = true := by
  simp [isNumChar, h]

/-- Every character a rendered number contains is a digit or the point. -/
theorem ratToStr_numChars (q : ℚ) : ∀ c ∈ ratToStr q, isNumChar c = true := by
  intro c hc
  rw [ratToStr] at hc
  split at hc
  · exact isNumChar_of_digit (natToStr_digits _ c hc)
  · split at hc
    · rcases List.mem_append.1 hc with h1 | h2
      · exact isNumChar_of_digit (natToStr_digits _ c h1)
      · rcases List.mem_cons.1 h2 with rfl | h3
        · rfl
        · exact isNumChar_of_digit (padZeros_digits (natToStr_digits _) _ c h3)
    · have hc0 : c = '0' := by simpa [str] using hc
      rw [hc0]
      rfl

theorem joinBar_cons (s t : JStr) (rest : List JStr) :
    joinBar (s :: t :: rest) = s ++ str " | " ++ joinBar (t :: rest) := rfl

theorem joinBar_concat (l : JStr) (xs : List JStr) (h : xs ≠ []) :
    joinBar (xs ++ [l]) = joinBar xs ++ str " | " ++ l := by
  induction xs with
  | nil => exact absurd rfl h
  | cons s rest ih =>
    cases rest with
    | nil => rfl
    | cons t rest2 =>
      show joinBar (s :: t :: (rest2 ++ [l])) = _
      rw [joinBar_cons, show t :: (rest2 ++ [l]) = (t :: rest2) ++ [l] from rfl,
        ih (by simp), joinBar_cons]
      simp [List.append_assoc]

theorem splitBar_map_trim (s : JStr) (segs : List JStr) (hs : '|' ∉ s)
    (hsegs : ∀ x ∈ segs, '|' ∉ x) :
    (splitOnChar '|' (joinBar (s :: segs))).map trim = trim s :: segs.map trim := by
  induction segs generalizing s with
  | nil =>
    rw [show joinBar [s] = s from rfl, splitOnChar_not_mem hs]
    rfl
  | cons t rest ih =>
    rw [joinBar_cons]
    have hshape : s ++ str " | " ++ joinBar (t :: rest) =
        (s ++ [' ']) ++ '|' :: (' ' :: joinBar (t :: rest)) := by
      simp [str]
    have hps : '|' ∉ s ++ [' '] := by
      intro hm
      rcases List.mem_append.1 hm with hm | hm
      · exact hs hm
      · simp at hm
    rw [hshape, splitOnChar_append hps]
    have hcons : ' ' :: joinBar (t :: rest) = joinBar ((' ' :: t) :: rest) := by
      cases rest with
      | nil => rfl
      | cons u rest2 => rfl
    have hpt : '|' ∉ ' ' :: t := by
      intro hm
      rcases List.mem_cons.1 hm with hm | hm
      · cases hm
      · exact hsegs t (by simp) hm
    rw [List.map_cons, hcons, ih (' ' :: t) hpt (fun x hx => hsegs x (by simp [hx]))]
    rw [trim_append_white (by intro c hc; simp at hc; rw [hc]; rfl),
      trim_cons_white (by rfl)]
    rw [List.map_cons]

theorem parts_of_joinBar (s : JStr) (segs : List JStr) (hs : '|' ∉ s)
    (hsegs : ∀ x ∈ segs, '|' ∉ x) (hW : ∀ x ∈ segs, rtrim x ≠ []) :
    (splitOnChar '|' (rtrim (joinBar (s :: segs)))).map trim = trim s :: segs.map trim := by
  rcases List.eq_nil_or_concat segs with rfl | ⟨init, l, rfl⟩
  · rw [show joinBar [s] = s from rfl]
    have hsr : '|' ∉ rtrim s := fun hm => hs (mem_of_mem_rtrim hm)
    rw [splitOnChar_not_mem hsr, List.map_cons, List.map_nil, trim_rtrim]
  · simp only [List.concat_eq_append] at hsegs hW ⊢
    have hcc : s :: (init ++ [l]) = (s :: init) ++ [l] := rfl
    rw [hcc, joinBar_concat l (s :: init) (by simp),
      rtrim_append (hW l (by simp))]
    rw [← joinBar_concat (rtrim l) (s :: init) (by simp),
      show (s :: init) ++ [rtrim l] = s :: (init ++ [rtrim l]) from rfl]
    rw [splitBar_map_trim s (init ++ [rtrim l]) hs ?hpipe]
    · rw [List.map_append, List.map_append, List.map_cons]
      simp only [List.map_cons, List.map_nil]
      rw [trim_rtrim]
    · intro x hx
      rcases List.mem_append.1 hx with hm | hm
      · exact hsegs x (by simp [hm])
      · simp at hm
        subst hm
        exact fun hmm => hsegs l (by simp) (mem_of_mem_rtrim hmm)

/-! ## Evaluating the field matchers on serializer output -/

theorem matchAmount_space {A B : JStr} (hA : ∀ c ∈ A, isNumChar c = true)
    (hAne : A ≠ []) : matchAmount (A ++ ' ' :: B) = some (A, ltrim B) := by
  rw [matchAmount]
  have hsp : isNumChar ' ' = false := rfl
  simp only [takeWhile_append_all hA, dropWhile_append_all hA,
    List.takeWhile_cons, List.dropWhile_cons, hsp, Bool.false_eq_true, if_false,
    List.append_nil]
  rw [if_neg hAne]
  rw [if_pos (show isWhite ' ' = true from rfl)]
  rfl

theorem matchAmount_all {A : JStr} (hA : ∀ c ∈ A, isNumChar c = true)
    (hAne : A ≠ []) : matchAmount A = some (A, []) := by
  rw [matchAmount]
  simp only [takeWhile_all hA, dropWhile_all hA]
  rw [if_neg hAne]
  rfl

theorem matchMin_eval {m : JStr} (hm : ∀ c ∈ m, isNumChar c = true) (hmne : m ≠ []) :
    matchMin (str "min: " ++ m) = some m := by
  rw [matchMin]
  have hlow : toLowerStr (str "min: " ++ m) = str "min: " ++ m := by
    rw [toLowerStr_append, toLowerStr_numChars hm]
    rfl
  rw [hlow]
  have hpre : (str "min:").isPrefixOf (str "min: " ++ m) = true := by
    rw [List.isPrefixOf_iff_prefix]
    rw [show str "min: " ++ m = str "min:" ++ (' ' :: m) by simp [str]]
    exact List.prefix_append _ _
  rw [if_pos hpre]
  have hdrop : (str "min: " ++ m).drop 4 = ' ' :: m := rfl
  rw [hdrop]
  have hltr : List.dropWhile isWhite (' ' :: m) = m := by
    rw [List.dropWhile_cons, if_pos (show isWhite ' ' = true from rfl)]
    exact dropWhile_all_false (fun c hc => numChar_not_white (hm c hc))
  rw [hltr]
  rw [if_pos ⟨hmne, List.all_eq_true.2 hm⟩]

theorem matchMin_restock : matchMin (str "restock") = none := by decide

theorem minSeg_ne_restock {m : JStr} :
    toLowerStr (str "min: " ++ m) ≠ str "restock" := by
  rw [toLowerStr_append, show toLowerStr (str "min: ") = str "min: " from rfl]
  intro hcon
  simp [str] at hcon

theorem scanExtras_restock : scanExtras [str "restock"] = (none, true) := by decide

theorem scanExtras_min {m : JStr} (hm : ∀ c ∈ m, isNumChar c = true) (hmne : m ≠ []) :
    scanExtras [str "min: " ++ m] = (some (parseFloatOr0 m), false) := by
  rw [scanExtras]
  simp only [List.foldl_cons, List.foldl_nil]
  rw [if_neg (show ¬ (str "min: " ++ m = []) by simp [str])]
  rw [matchMin_eval hm hmne]
  rw [if_neg minSeg_ne_restock]

theorem scanExtras_min_restock {m : JStr} (hm : ∀ c ∈ m, isNumChar c = true)
    (hmne : m ≠ []) :
    scanExtras [str "min: " ++ m, str "restock"] =
      (some (parseFloatOr0 m), true) := by
  rw [scanExtras]
  simp only [List.foldl_cons, List.foldl_nil]
  rw [if_neg (show ¬ (str "min: " ++ m = []) by simp [str])]
  rw [matchMin_eval hm hmne]
  rw [if_neg minSeg_ne_restock]
  rw [if_neg (show ¬ (str "restock" = ([] : JStr)) by simp [str])]
  rw [matchMin_restock]
  rw [if_pos (show toLowerStr (str "restock") = str "restock" from by decide)]

/-! ## Trim-stability and the data-model invariants (spec sections 2, 3, 6) -/

theorem rtrim_of_trim_eq {u : JStr} (h : trim u = u) : rtrim u = u := by
  have hpre : (u.reverse.dropWhile isWhite) <:+ u.reverse := List.dropWhile_suffix _
  have h2 : (rtrim u).length ≤ u.length := by
    rw [rtrim, List.length_reverse]
    have := hpre.length_le
    simpa using this
  have h1 : (trim u).length ≤ (rtrim u).length := by
    rw [trim, ltrim]
    exact (List.dropWhile_suffix _).length_le
  have hlen0 : (trim u).length = u.length := by rw [h]
  have hlen : (u.reverse.dropWhile isWhite).length = u.reverse.length := by
    rw [List.length_reverse]
    have hr : (rtrim u).length = (u.reverse.dropWhile isWhite).length := by
      rw [rtrim, List.length_reverse]
    omega
  have hd := hpre.eq_of_length hlen
  rw [rtrim, hd, List.reverse_reverse]

theorem ltrim_of_trim_eq {u : JStr} (h : trim u = u) : ltrim u = u := by
  have hr := rtrim_of_trim_eq h
  rw [trim, hr] at h
  exact h

theorem validStr_trim {s : JStr} (h : validStr s = true) : trim s = s := by
  rw [validStr, Bool.and_eq_true] at h
  exact of_decide_eq_true h.1

theorem validStr_mem {s : JStr} (h : validStr s = true) {c : Char} (hc : c ∈ s) :
    c ≠ '|' ∧ c ≠ '[' ∧ c ≠ ']' ∧ c ≠ '\n' ∧ c ≠ '\r' := by
  rw [validStr, Bool.and_eq_true, List.all_eq_true] at h
  have := h.2 c hc
  simp only [Bool.not_eq_true', Bool.or_eq_false_iff, decide_eq_false_iff_not] at this
  exact ⟨this.1.1.1.1, this.1.1.1.2, this.1.1.2, this.1.2, this.2⟩

theorem validStr_not_pipe {s : JStr} (h : validStr s = true) : '|' ∉ s :=
  fun hc => (validStr_mem h hc).1 rfl

theorem ratToStr_ne_nil (q : ℚ) : ratToStr q ≠ [] := by
  rw [ratToStr]
  split
  · exact natToStr_ne_nil _
  · split
    · intro hcon
      exact natToStr_ne_nil _ (List.append_eq_nil.1 hcon).1
    · simp [str]

theorem itemToMarkdownLine_eq (it : FoodItem) :
    itemToMarkdownLine it = str "- [" ++ [statusChar it] ++ str "] " ++ bodyOf it := by
  rw [itemToMarkdownLine, bodyOf]
  simp [List.append_assoc]

theorem statusChar_nonbool_out {it : FoodItem} (hb : it.unitType ≠ .boolean)
    (hq : amountNumOr0 it.amount ≤ 0) : statusChar it = '-' := by
  rw [statusChar, getStockStatus, if_neg hb, if_pos hq]

theorem getStockStatus_nonbool_ne {it : FoodItem} (hb : it.unitType ≠ .boolean)
    (hq : ¬ amountNumOr0 it.amount ≤ 0) :
    getStockStatus it = .warning ∨ getStockStatus it = .normal := by
  rw [getStockStatus, if_neg hb, if_neg hq]
  rcases it.minimum with _ | m
  · right
    rfl
  · by_cases hm : 0 < m ∧ amountNumOr0 it.amount ≤ m
    · left
      show (if 0 < m ∧ amountNumOr0 it.amount ≤ m then StockStatus.warning
        else StockStatus.normal) = StockStatus.warning
      rw [if_pos hm]
    · right
      show (if 0 < m ∧ amountNumOr0 it.amount ≤ m then StockStatus.warning
        else StockStatus.normal) = StockStatus.normal
      rw [if_neg hm]

theorem statusChar_nonbool_pos {it : FoodItem} (hb : it.unitType ≠ .boolean)
    (hq : ¬ amountNumOr0 it.amount ≤ 0) :
    statusChar it ≠ 'x' ∧ statusChar it ≠ '-' := by
  rcases getStockStatus_nonbool_ne hb hq with h | h
  · rw [statusChar, h]
    exact ⟨by decide, by decide⟩
  · rw [statusChar, h]
    exact ⟨by decide, by decide⟩

theorem statusChar_bool {it : FoodItem} (hb : it.unitType = .boolean) :
    statusChar it = if amountTruthy it.amount then 'x' else '-' := by
  rw [statusChar, getStockStatus, if_pos hb]
  by_cases ht : amountTruthy it.amount = true
  · rw [if_pos ht, if_pos ht]
  · rw [if_neg ht, if_neg ht]

theorem inferUnitType_ne_boolean (q : ℚ) (u : JStr) : inferUnitType q u ≠ .boolean := by
  simp only [inferUnitType]
  split_ifs <;> decide

theorem trim_numPrefix {A B : JStr} (hA : ∀ c ∈ A, isNumChar c = true) (hAne : A ≠ [])
    (hB : rtrim B = B) (hBne : B ≠ []) : trim (A ++ B) = A ++ B := by
  rw [trim, rtrim_append (show rtrim B ≠ [] by rw [hB]; exact hBne), hB]
  apply ltrim_eq_self
  intro c hc
  cases A with
  | nil => exact absurd rfl hAne
  | cons a t =>
    simp only [List.cons_append, List.take_succ_cons, List.take_zero,
      List.mem_singleton] at hc
    rw [hc]
    exact numChar_not_white (hA a (by simp))

theorem rtrim_numChars {s : JStr} (h : ∀ c ∈ s, isNumChar c = true) : rtrim s = s :=
  rtrim_of_trim_eq (trim_eq_self_of_no_white (fun c hc => numChar_not_white (h c hc)))

theorem trim_minSeg {m : ℚ} :
    trim (str "min: " ++ ratToStr m) = str "min: " ++ ratToStr m := by
  rw [trim, rtrim_append (show rtrim (ratToStr m) ≠ [] by
    rw [rtrim_numChars (ratToStr_numChars m)]; exact ratToStr_ne_nil m),
    rtrim_numChars (ratToStr_numChars m)]
  apply ltrim_eq_self
  intro c hc
  simp only [str] at hc
  simp at hc
  rw [hc]
  rfl

theorem numStr_ne_head {A B : JStr} (hA : ∀ c ∈ A, isNumChar c = true) (hAne : A ≠ [])
    {d : Char} {t : JStr} (hd : d.toNat = 47 ∨ d.toNat < 46 ∨ 58 ≤ d.toNat) :
    A ++ B ≠ d :: t := by
  intro hcon
  cases A with
  | nil => exact hAne rfl
  | cons a s =>
    rw [List.cons_append] at hcon
    have ha : a = d := (List.cons_eq_cons.1 hcon).1
    exact numChar_ne (hA a (by simp)) hd ha

theorem joinBar_append_barTail (l : List JStr) (hl : l ≠ []) (xs : List JStr) :
    joinBar (l ++ xs) = joinBar l ++ barTail xs := by
  induction xs generalizing l with
  | nil => simp [barTail]
  | cons x xs ih =>
    have h1 : l ++ x :: xs = (l ++ [x]) ++ xs := by simp
    rw [h1, ih (l ++ [x]) (by simp), joinBar_concat x l hl]
    show _ = joinBar l ++ (str " | " ++ x ++ barTail xs)
    simp [List.append_assoc]

theorem minSeg_not_pipe {m : ℚ} : '|' ∉ str "min: " ++ ratToStr m := by
  intro hmem
  rcases List.mem_append.1 hmem with h1 | h2
  · exact (by decide : '|' ∉ str "min: ") h1
  · exact numChar_ne (ratToStr_numChars m _ h2) (Or.inr (Or.inr (by decide))) rfl

theorem minSeg_rtrim_ne {m : ℚ} : rtrim (str "min: " ++ ratToStr m) ≠ [] := by
  rw [rtrim_of_trim_eq trim_minSeg]
  simp [str]

/-- The extra segments (`min:` and `restock`) a non-boolean line appends, with
the facts the parse needs about them. -/
theorem extras_segs (it : FoodItem) (hb : ¬ it.unitType = .boolean)
    (hminOK : ∀ m, it.minimum = some m → 0 ≤ m ∧ DecRenderable m = true) :
    ∃ ES : List JStr, (∀ x ∈ ES, '|' ∉ x) ∧ (∀ x ∈ ES, rtrim x ≠ []) ∧
      ES.map trim = ES ∧
      ((match it.minimum with
        | some m => if it.unitType = .boolean then []
          else str " | min: " ++ ratToStr m
        | none => []) ++
        (if it.plannedRestock then str " | restock" else []) = barTail ES) ∧
      scanExtras ES = (it.minimum, it.plannedRestock) := by
  rcases hm : it.minimum with _ | m
  · rcases hpr : it.plannedRestock
    · exact ⟨[], by simp, by simp, rfl, rfl, rfl⟩
    · exact ⟨[str "restock"], by decide, by decide, by decide, rfl, scanExtras_restock⟩
  · obtain ⟨hm0, hmDR⟩ := hminOK m hm
    have hRchars := ratToStr_numChars m
    have hRne := ratToStr_ne_nil m
    have hfl : parseFloatOr0 (ratToStr m) = m := parseFloat_ratToStr m hm0 hmDR
    rcases hpr : it.plannedRestock
    · refine ⟨[str "min: " ++ ratToStr m],
        (by intro x hx; simp at hx; rw [hx]; exact minSeg_not_pipe),
        (by intro x hx; simp at hx; rw [hx]; exact minSeg_rtrim_ne),
        (by simp only [List.map_cons, List.map_nil, trim_minSeg]), ?_, ?_⟩
      · show (if it.unitType = .boolean then [] else str " | min: " ++ ratToStr m) ++
          (if false = true then str " | restock" else []) =
            str " | " ++ (str "min: " ++ ratToStr m) ++ []
        rw [if_neg hb,
          show (if false = true then str " | restock" else ([] : JStr)) = [] from rfl,
          List.append_nil, List.append_nil, ← List.append_assoc,
          show (str " | " ++ str "min: " : JStr) = str " | min: " from by decide]
      · rw [scanExtras_min hRchars hRne, hfl]
    · refine ⟨[str "min: " ++ ratToStr m, str "restock"],
        ?_, ?_, ?_, ?_, ?_⟩
      · intro x hx
        simp at hx
        rcases hx with hx | hx
        · rw [hx]
          exact minSeg_not_pipe
        · rw [hx]
          decide
      · intro x hx
        simp at hx
        rcases hx with hx | hx
        · rw [hx]
          exact minSeg_rtrim_ne
        · rw [hx]
          decide
      · simp only [List.map_cons, List.map_nil, trim_minSeg]
        rw [show trim (str "restock") = str "restock" from by decide]
      · show (if it.unitType = .boolean then [] else str " | min: " ++ ratToStr m) ++
          (if true = true then str " | restock" else []) =
            str " | " ++ (str "min: " ++ ratToStr m) ++ (str " | " ++ str "restock" ++ [])
        rw [if_neg hb,
          show (if true = true then str " | restock" else ([] : JStr)) = str " | restock"
            from rfl,
          show (str " | min: " : JStr) = str " | " ++ str "min: " from by decide,
          show (str " | restock" : JStr) = str " | " ++ str "restock" from by decide]
        simp [List.append_assoc]
      · rw [scanExtras_min_restock hRchars hRne, hfl]

theorem numStr_ne {A : JStr} (hA : ∀ c ∈ A, isNumChar c = true) (hAne : A ≠ [])
    {d : Char} {t : JStr} (hd : d.toNat = 47 ∨ d.toNat < 46 ∨ 58 ≤ d.toNat) :
    A ≠ d :: t := by
  intro hcon
  cases A with
  | nil => exact hAne rfl
  | cons a s =>
    have ha : a = d := (List.cons_eq_cons.1 hcon).1
    exact numChar_ne (hA a (by simp)) hd ha

/-- The written amount segment of a non-boolean line, with the facts the
parse needs about it. -/
theorem amt_seg (it : FoodItem) (q : ℚ) (hamt : it.amount = .num q)
    (hq0 : 0 ≤ q) (hDR : DecRenderable q = true)
    (hunitT : trim it.unit = it.unit) (hunitP : '|' ∉ it.unit) :
    ∃ AS : JStr, '|' ∉ AS ∧ rtrim AS ≠ [] ∧
      amountToStr it.amount ++ [' '] ++ it.unit = AS ∧
      toLowerStr (trim AS) ≠ str "in stock" ∧
      toLowerStr (trim AS) ≠ str "out of stock" ∧
      matchAmount (toLowerStr (trim AS)) = some (ratToStr q, toLowerStr it.unit) := by
  have hA := ratToStr_numChars q
  have hAne := ratToStr_ne_nil q
  have hAmtStr : amountToStr it.amount = ratToStr q := by rw [hamt, amountToStr]
  by_cases hun : it.unit = []
  · have htaw : trim (ratToStr q ++ [' ']) = ratToStr q := by
      rw [trim_append_white (by intro c hc; simp at hc; rw [hc]; rfl),
        trim_eq_self_of_no_white (fun c hc => numChar_not_white (hA c hc))]
    refine ⟨ratToStr q ++ [' '], ?_, ?_, ?_, ?_, ?_, ?_⟩
    · intro hmem
      rcases List.mem_append.1 hmem with h1 | h2
      · exact numChar_ne (hA _ h1) (Or.inr (Or.inr (by decide))) rfl
      · simp at h2
    · rw [rtrim_append_white (by intro c hc; simp at hc; rw [hc]; rfl),
        rtrim_numChars hA]
      exact hAne
    · rw [hAmtStr, hun, List.append_nil]
    · rw [htaw, toLowerStr_numChars hA]
      exact numStr_ne hA hAne (Or.inr (Or.inr (by decide)))
    · rw [htaw, toLowerStr_numChars hA]
      exact numStr_ne hA hAne (Or.inr (Or.inr (by decide)))
    · rw [htaw, toLowerStr_numChars hA, matchAmount_all hA hAne, hun]
      rfl
  · have hrU : rtrim it.unit = it.unit := rtrim_of_trim_eq hunitT
    have hlU : ltrim it.unit = it.unit := ltrim_of_trim_eq hunitT
    have hrB : rtrim (' ' :: it.unit) = ' ' :: it.unit := by
      rw [show (' ' :: it.unit : JStr) = [' '] ++ it.unit from rfl,
        rtrim_append (by rw [hrU]; exact hun), hrU]
    have htrim : trim (ratToStr q ++ ' ' :: it.unit) = ratToStr q ++ ' ' :: it.unit :=
      trim_numPrefix hA hAne hrB (by simp)
    have hlow : toLowerStr (ratToStr q ++ ' ' :: it.unit) =
        ratToStr q ++ ' ' :: toLowerStr it.unit := by
      rw [show (ratToStr q ++ ' ' :: it.unit : JStr) =
        ratToStr q ++ ([' '] ++ it.unit) from rfl, toLowerStr_append, toLowerStr_append,
        toLowerStr_numChars hA]
      rfl
    refine ⟨ratToStr q ++ ' ' :: it.unit, ?_, ?_, ?_, ?_, ?_, ?_⟩
    · intro hmem
      rcases List.mem_append.1 hmem with h1 | h2
      · exact numChar_ne (hA _ h1) (Or.inr (Or.inr (by decide))) rfl
      · rcases List.mem_cons.1 h2 with h3 | h3
        · cases h3
        · exact hunitP h3
    · rw [show (ratToStr q ++ ' ' :: it.unit : JStr) =
        (ratToStr q ++ [' ']) ++ it.unit from by simp,
        rtrim_append (by rw [hrU]; exact hun)]
      simp
    · rw [hAmtStr]
      simp
    · rw [htrim, hlow]
      exact numStr_ne_head hA hAne (Or.inr (Or.inr (by decide)))
    · rw [htrim, hlow]
      exact numStr_ne_head hA hAne (Or.inr (Or.inr (by decide)))
    · rw [htrim, hlow, matchAmount_space hA hAne, ltrim_toLower, hlU]

theorem parseItemContent_of_parts (id : ℕ) (cat nm apRaw : JStr) (content : JStr)
    (ES : List JStr) (c : Char)
    (hsplit : (splitOnChar '|' content).map trim = nm :: apRaw :: ES) :
    parseItemContent id content cat c =
      some { id := id, name := nm, category := cat,
             unitType := (baseOf apRaw).1,
             amount := amtOverride c (baseOf apRaw),
             unit := (baseOf apRaw).2.2,
             minimum := (scanExtras ES).1,
             plannedRestock := (scanExtras ES).2 } := by
  simp only [parseItemContent]
  rw [hsplit]
  rw [if_neg (show ¬ (nm :: apRaw :: ES = []) by simp)]
  rw [if_pos (show 2 ≤ (nm :: apRaw :: ES).length by simp)]
  simp only [List.headD_cons, List.getD_cons_succ, List.getD_cons_zero,
    List.drop_succ_cons, List.drop_zero]
  rw [baseOf, amtOverride]

/-- Parsing the body of a serialized item line under the line status
character reproduces the item: the id and category come from the parse
context and the unit comes back lowercased (the amount field is lowercased
wholesale at line 127). -/
theorem parseItemContent_round (id : ℕ) (cat : JStr) (it : FoodItem)
    (hv : validItem it = true) :
    parseItemContent id (rtrim (bodyOf it)) cat (statusChar it) =
      some { it with id := id, category := cat, unit := toLowerStr it.unit } := by
  rw [validItem] at hv
  simp only [Bool.and_eq_true] at hv
  obtain ⟨⟨⟨⟨hname, hcat⟩, hunit⟩, hncat⟩, hmatch⟩ := hv
  have hnameT := validStr_trim hname
  have hnameP := validStr_not_pipe hname
  have hunitT := validStr_trim hunit
  have hunitP := validStr_not_pipe hunit
  by_cases hb : it.unitType = .boolean
  · rw [if_pos hb] at hmatch
    rcases hamt : it.amount with q | b
    · rw [hamt] at hmatch
      simp at hmatch
    · rw [hamt] at hmatch
      simp only [Bool.and_eq_true, decide_eq_true_eq, beq_iff_eq] at hmatch
      obtain ⟨hmin, hpcs⟩ := hmatch
      obtain ⟨ES, hESP, hESW, hEST, hEStail, hscan⟩ :
          ∃ ES : List JStr, (∀ x ∈ ES, '|' ∉ x) ∧ (∀ x ∈ ES, rtrim x ≠ []) ∧
            ES.map trim = ES ∧
            ((match it.minimum with
              | some m => if it.unitType = .boolean then []
                else str " | min: " ++ ratToStr m
              | none => []) ++
              (if it.plannedRestock then str " | restock" else []) = barTail ES) ∧
            scanExtras ES = (none, it.plannedRestock) := by
        rcases hpr : it.plannedRestock
        · exact ⟨[], by simp, by simp, rfl, by rw [hmin]; rfl, rfl⟩
        · exact ⟨[str "restock"], by decide, by decide, by decide,
            by rw [hmin]; rfl, scanExtras_restock⟩
      obtain ⟨S, hSeq, hSP, hSW, hST, hSbase⟩ :
          ∃ S : JStr,
            ((if amountTruthy it.amount then str " | in stock"
              else str " | out of stock") = str " | " ++ S) ∧
            '|' ∉ S ∧ rtrim S ≠ [] ∧ trim S = S ∧
            baseOf S = (.boolean, .flag b, str "pcs") := by
        rw [hamt]
        rcases b
        · exact ⟨str "out of stock", by decide, by decide, by decide, by decide,
            by decide⟩
        · exact ⟨str "in stock", by decide, by decide, by decide, by decide,
            by decide⟩
      have hbody : bodyOf it = joinBar ([it.name, S] ++ ES) := by
        rw [bodyOf, if_pos hb, hSeq]
        rw [joinBar_append_barTail [it.name, S] (by simp) ES, ← hEStail]
        rw [joinBar_cons, show joinBar [S] = S from rfl]
        simp [List.append_assoc]
      have hparts := parts_of_joinBar it.name ([S] ++ ES) hnameP
        (by
          intro x hx
          rcases List.mem_append.1 hx with h1 | h2
          · simp at h1
            rw [h1]
            exact hSP
          · exact hESP x h2)
        (by
          intro x hx
          rcases List.mem_append.1 hx with h1 | h2
          · simp at h1
            rw [h1]
            exact hSW
          · exact hESW x h2)
      rw [List.map_append, hEST, hnameT] at hparts
      rw [show List.map trim [S] = [S] from by rw [List.map_cons, List.map_nil, hST]]
        at hparts
      rw [hbody, parseItemContent_of_parts id cat it.name S (rtrim (joinBar ([it.name, S] ++ ES))) ES (statusChar it) hparts]
      rw [hSbase, hscan]
      have hsc : statusChar it = if b = true then 'x' else '-' := by
        rw [statusChar_bool hb, hamt]
        rfl
      have hover : amtOverride (statusChar it)
          ((UnitType.boolean, Amount.flag b, str "pcs") : UnitType × Amount × JStr) =
            Amount.flag b := by
        rw [hsc, amtOverride]
        rcases b
        · rw [if_neg (fun hcon => absurd hcon.1 (by decide)), if_pos (by rfl)]
          rw [if_pos (by rfl)]
        · rw [if_neg (fun hcon => absurd hcon.2 (fun hne => hne rfl)),
            if_neg (by decide)]
      rw [hover]
      rw [← hamt, ← hmin]
      rw [show (str "pcs" : JStr) = toLowerStr it.unit from by rw [hpcs]; rfl]
      rw [show (UnitType.boolean : UnitType) = it.unitType from hb.symm]
  · rw [if_neg hb] at hmatch
    rcases hamt : it.amount with q | b
    case neg.flag =>
      rw [hamt] at hmatch
      simp at hmatch
    case neg.num =>
      rw [hamt] at hmatch
      simp only [Bool.and_eq_true, decide_eq_true_eq, beq_iff_eq] at hmatch
      obtain ⟨⟨⟨hq0, hDR⟩, hinf⟩, hminM⟩ := hmatch
      have hminOK : ∀ m, it.minimum = some m → 0 ≤ m ∧ DecRenderable m = true := by
        intro m hm
        rw [hm] at hminM
        simpa using hminM
      obtain ⟨ES, hESP, hESW, hEST, hEStail, hscan⟩ := extras_segs it hb hminOK
      obtain ⟨AS, hASP, hASW, hASeq, hne1, hne2, hASmatch⟩ :=
        amt_seg it q hamt hq0 hDR hunitT hunitP
      have hbody : bodyOf it = joinBar ([it.name, AS] ++ ES) := by
        rw [bodyOf, if_neg hb]
        rw [joinBar_append_barTail [it.name, AS] (by simp) ES, ← hEStail]
        rw [joinBar_cons, show joinBar [AS] = AS from rfl, ← hASeq]
        simp [List.append_assoc]
      have hparts := parts_of_joinBar it.name ([AS] ++ ES) hnameP
        (by
          intro x hx
          rcases List.mem_append.1 hx with h1 | h2
          · simp at h1
            rw [h1]
            exact hASP
          · exact hESP x h2)
        (by
          intro x hx
          rcases List.mem_append.1 hx with h1 | h2
          · simp at h1
            rw [h1]
            exact hASW
          · exact hESW x h2)
      rw [List.map_append, hEST, hnameT, List.map_cons, List.map_nil] at hparts
      rw [hbody, parseItemContent_of_parts id cat it.name (trim AS) (rtrim (joinBar ([it.name, AS] ++ ES))) ES (statusChar it) hparts]
      have hbase : baseOf (trim AS) = (it.unitType, Amount.num q, toLowerStr it.unit) := by
        rw [baseOf]
        rw [if_neg hne1, if_neg hne2, hASmatch]
        show (inferUnitType (parseFloatOr0 (ratToStr q)) (toLowerStr it.unit),
          Amount.num (parseFloatOr0 (ratToStr q)), toLowerStr it.unit) =
            (it.unitType, Amount.num q, toLowerStr it.unit)
        rw [show parseFloatOr0 (ratToStr q) = q from parseFloat_ratToStr q hq0 hDR, hinf]
      rw [hbase, hscan]
      have hover : amtOverride (statusChar it)
          ((it.unitType, Amount.num q, toLowerStr it.unit) :
            UnitType × Amount × JStr) = Amount.num q := by
        by_cases hqz : q ≤ 0
        · have hq00 : q = 0 := le_antisymm hqz hq0
          have hsc := statusChar_nonbool_out hb
            (show amountNumOr0 it.amount ≤ 0 by rw [hamt]; exact hqz)
          rw [amtOverride, hsc]
          rw [if_neg (fun hcon => absurd hcon.1 (by decide)), if_pos (by rfl)]
          show (if it.unitType = .boolean then Amount.flag false else Amount.num 0) = _
          rw [if_neg hb, hq00]
        · obtain ⟨hx, hd⟩ := statusChar_nonbool_pos hb
            (show ¬ amountNumOr0 it.amount ≤ 0 by rw [hamt]; exact hqz)
          rw [amtOverride, if_neg (fun hcon => hx hcon.1), if_neg hd]
      rw [hover, ← hamt]

theorem matchItemLine_frame (c : Char) (B : JStr) (hB : B ≠ []) :
    matchItemLine (str "- [" ++ [c] ++ str "] " ++ B) = some (c, B) := by
  show matchItemLine ('-' :: ' ' :: '[' :: c :: ']' :: ' ' :: B) = some (c, B)
  rw [matchItemLine]
  rw [if_pos ⟨rfl, rfl, rfl, rfl, rfl, hB⟩]

/-- Parsing a serialized item line appends exactly the reproduced item (with
the running id and the current category) to the state. -/
theorem parseLine_item (st : PState) (it : FoodItem) (hv : validItem it = true)
    (hfm : st.inFrontmatter = false) :
    parseLine st (itemToMarkdownLine it) =
      { st with
        items := st.items ++
          [{ it with
              id := st.nextId,
              category := st.currentCategory,
              unit := toLowerStr it.unit }],
        nextId := st.nextId + 1 } := by
  have hpipe : '|' ∈ bodyOf it := by
    rw [bodyOf]
    refine List.mem_append.2 (Or.inl (List.mem_append.2 (Or.inl
      (List.mem_append.2 (Or.inr ?_)))))
    split
    · split
      · decide
      · decide
    · exact List.mem_append.2 (Or.inl (List.mem_append.2 (Or.inl
        (List.mem_append.2 (Or.inl (by decide))))))
  have hBne : rtrim (bodyOf it) ≠ [] := by
    intro hcon
    exact absurd (rtrim_eq_nil.1 hcon '|' hpipe) (by decide)
  have htl : trim (itemToMarkdownLine it) =
      str "- [" ++ [statusChar it] ++ str "] " ++ rtrim (bodyOf it) := by
    rw [itemToMarkdownLine_eq, trim, rtrim_append hBne]
    apply ltrim_eq_self
    intro ch hch
    have hch2 : ch ∈ (['-'] : JStr) := hch
    simp at hch2
    rw [hch2]
    rfl
  rw [parseLine, htl]
  rw [if_neg (show ¬ (str "- [" ++ [statusChar it] ++ str "] " ++ rtrim (bodyOf it) =
      str "---") by
    intro hcon
    have hcon2 : ('-' :: ' ' :: '[' :: statusChar it :: ']' :: ' ' ::
      rtrim (bodyOf it) : JStr) = ['-', '-', '-'] := hcon
    simp at hcon2)]
  rw [hfm]
  rw [if_neg (show ¬ (false = true) by decide)]
  rw [if_neg (show ¬ ((str "## ").isPrefixOf (str "- [" ++ [statusChar it] ++
      str "] " ++ rtrim (bodyOf it)) = true) by
    intro hcon
    have hcon2 : List.isPrefixOf ['#', '#', ' '] ('-' :: ' ' :: '[' :: statusChar it ::
      ']' :: ' ' :: rtrim (bodyOf it)) = true := hcon
    have h3 : List.isPrefixOf ['#', '#', ' '] ('-' :: ' ' :: '[' :: statusChar it ::
      ']' :: ' ' :: rtrim (bodyOf it)) = false := rfl
    rw [h3] at hcon2
    exact Bool.false_ne_true hcon2)]
  rw [matchItemLine_frame (statusChar it) (rtrim (bodyOf it)) hBne]
  show (match parseItemContent st.nextId (rtrim (bodyOf it)) st.currentCategory
      (statusChar it) with
    | some item =>
      ({ items := st.items ++ [item], currentCategory := st.currentCategory,
         inFrontmatter := false, nextId := st.nextId + 1 } : PState)
    | none => st) = _
  rw [parseItemContent_round st.nextId st.currentCategory it hv]

theorem parseLine_blank (st : PState) : parseLine st [] = st := by
  rw [parseLine]
  rw [if_neg (show ¬ (trim [] = str "---") by decide)]
  cases hf : st.inFrontmatter
  · rw [if_neg (show ¬ (false = true) by decide)]
    rw [if_neg (show ¬ ((str "## ").isPrefixOf (trim []) = true) by decide)]
    rfl
  · rw [if_pos rfl]

theorem parseLine_dash (st : PState) :
    parseLine st (str "---") = { st with inFrontmatter := !st.inFrontmatter } := by
  rw [parseLine]
  rw [if_pos (show trim (str "---") = str "---" by decide)]

theorem parseLine_fm (st : PState) (l : JStr) (hfm : st.inFrontmatter = true)
    (hne : trim l ≠ str "---") : parseLine st l = st := by
  rw [parseLine, if_neg hne, hfm, if_pos rfl]

theorem trim_cons_of_not_white {c : Char} (hc : isWhite c = false) (rest : JStr) :
    trim (c :: rest) = c :: rtrim rest := by
  by_cases hr : rtrim rest = []
  · have hw := rtrim_eq_nil.1 hr
    have h1 : rtrim (c :: rest) = [c] := by
      rw [rtrim, List.reverse_cons,
        dropWhile_append_all (by intro x hx; exact hw x (List.mem_reverse.1 hx))]
      simp [List.dropWhile_cons, hc]
    rw [trim, h1, hr]
    rw [ltrim, List.dropWhile_cons]
    simp [hc]
  · rw [trim, show (c :: rest : JStr) = [c] ++ rest from rfl, rtrim_append hr]
    rw [show ([c] ++ rtrim rest : JStr) = c :: rtrim rest from rfl]
    rw [ltrim, List.dropWhile_cons]
    simp [hc]

theorem trim_head_ne {c : Char} (hcw : isWhite c = false) (hcd : c ≠ '-')
    (rest : JStr) : trim (c :: rest) ≠ str "---" := by
  rw [trim_cons_of_not_white hcw]
  intro hcon
  have hcon2 : (c :: rtrim rest : JStr) = ['-', '-', '-'] := hcon
  exact hcd (List.cons_eq_cons.1 hcon2).1

theorem not_prefix_hash {c : Char} (hc : c ≠ '#') (t : JStr) :
    (str "## ").isPrefixOf (c :: t) = false := by
  show List.isPrefixOf ('#' :: '#' :: ' ' :: []) (c :: t) = false
  rw [List.isPrefixOf]
  rw [show ('#' == c) = false from beq_eq_false_iff_ne.2 (Ne.symm hc)]
  rfl

theorem parseLine_header (st : PState) (cat : JStr) (hfm : st.inFrontmatter = false)
    (hcatT : trim cat = cat) (hncat : toLowerStr cat ≠ str "uncategorized")
    (hcne : cat ≠ []) :
    parseLine st (str "## " ++ cat) = { st with currentCategory := cat } := by
  have hcr : rtrim cat = cat := rtrim_of_trim_eq hcatT
  have htl : trim (str "## " ++ cat) = str "## " ++ cat := by
    rw [trim, rtrim_append (by rw [hcr]; exact hcne), hcr]
    apply ltrim_eq_self
    intro ch hch
    have hch2 : ch ∈ (['#'] : JStr) := hch
    simp at hch2
    rw [hch2]
    rfl
  rw [parseLine, htl]
  rw [if_neg (show ¬ (str "## " ++ cat = str "---") by
    intro hcon
    have hcon2 : ('#' :: '#' :: ' ' :: cat : JStr) = ['-', '-', '-'] := hcon
    simp at hcon2)]
  rw [hfm]
  rw [if_neg (show ¬ (false = true) by decide)]
  rw [if_pos (show (str "## ").isPrefixOf (str "## " ++ cat) = true by
    rw [List.isPrefixOf_iff_prefix]
    exact List.prefix_append _ _)]
  rw [show (str "## " ++ cat).drop 3 = cat from rfl, hcatT]
  show ({ items := st.items,
          currentCategory := if toLowerStr cat = str "uncategorized" then [] else cat,
          inFrontmatter := false,
          nextId := st.nextId } : PState) = _
  rw [if_neg hncat]

theorem parseLine_header_unc (st : PState) (hfm : st.inFrontmatter = false) :
    parseLine st (str "## " ++ str "Uncategorized") =
      { st with currentCategory := [] } := by
  rw [parseLine]
  rw [if_neg (show ¬ (trim (str "## " ++ str "Uncategorized") = str "---") by decide)]
  rw [hfm]
  rw [if_neg (show ¬ (false = true) by decide)]
  rw [if_pos (show (str "## ").isPrefixOf (trim (str "## " ++ str "Uncategorized")) =
    true by decide)]
  rfl

theorem reDo_append (a b : List FoodItem) (n : ℕ) :
    reDo n (a ++ b) = reDo n a ++ reDo (n + a.length) b := by
  induction a generalizing n with
  | nil => simp [reDo]
  | cons x rest ih =>
    show ({ x with id := n, unit := toLowerStr x.unit } :: reDo (n + 1) (rest ++ b)) = _
    rw [ih (n + 1), show n + 1 + rest.length = n + (rest.length + 1) from by omega]
    rfl

theorem foldItems (st : PState) (bucket : List FoodItem)
    (hfm : st.inFrontmatter = false)
    (hb : ∀ x ∈ bucket, validItem x = true ∧ x.category = st.currentCategory) :
    List.foldl parseLine st (bucket.map itemToMarkdownLine) =
      { st with
        items := st.items ++ reDo st.nextId bucket,
        nextId := st.nextId + bucket.length } := by
  induction bucket generalizing st with
  | nil =>
    simp only [List.map_nil, List.foldl_nil, reDo, List.append_nil,
      List.length_nil, Nat.add_zero]
  | cons x rest ih =>
    rw [List.map_cons, List.foldl_cons]
    obtain ⟨hvx, hcx⟩ := hb x (by simp)
    rw [parseLine_item st x hvx hfm]
    rw [ih { st with items := st.items ++ [{ x with id := st.nextId, category := st.currentCategory, unit := toLowerStr x.unit }], nextId := st.nextId + 1 } hfm (fun y hy => hb y (by simp [hy]))]
    rw [← hcx]
    simp only [PState.mk.injEq, List.length_cons]
    refine ⟨?_, trivial, trivial, by omega⟩
    rw [List.append_assoc]
    rfl

theorem foldHeader (st : PState) (hfm : st.inFrontmatter = false) (v : ℕ)
    (date : JStr) (rest : List JStr) :
    List.foldl parseLine st
      (str "---" :: str "stoker-plugin: inventory" ::
        (str "version: " ++ natToStr v) :: (str "lastUpdated: " ++ date) ::
        str "---" :: [] :: rest) = List.foldl parseLine st rest := by
  have h1 : parseLine st (str "---") = { st with inFrontmatter := true } := by
    rw [parseLine_dash, hfm]
    rfl
  have hfm1 : ({ st with inFrontmatter := true } : PState).inFrontmatter = true := rfl
  have hver : trim (str "version: " ++ natToStr v) ≠ str "---" :=
    trim_head_ne (c := 'v') (by decide) (by decide) (str "ersion: " ++ natToStr v)
  have hlu : trim (str "lastUpdated: " ++ date) ≠ str "---" :=
    trim_head_ne (c := 'l') (by decide) (by decide) (str "astUpdated: " ++ date)
  have h2 : parseLine { st with inFrontmatter := true } (str "---") =
      { st with inFrontmatter := false } := by
    rw [parseLine_dash]
    rfl
  rw [List.foldl_cons, h1, List.foldl_cons,
    parseLine_fm _ _ hfm1 (by decide), List.foldl_cons,
    parseLine_fm _ _ hfm1 hver, List.foldl_cons,
    parseLine_fm _ _ hfm1 hlu, List.foldl_cons, h2, List.foldl_cons,
    parseLine_blank, ← hfm]

theorem splitOnChar_joinLines (l : JStr) (ls : List JStr) (hl : '\n' ∉ l)
    (hls : ∀ x ∈ ls, '\n' ∉ x) :
    splitOnChar '\n' (joinLines (l :: ls)) = l :: ls := by
  induction ls generalizing l with
  | nil =>
    rw [show joinLines [l] = l from rfl, splitOnChar_not_mem hl]
  | cons t rest ih =>
    rw [show joinLines (l :: t :: rest) = l ++ '\n' :: joinLines (t :: rest) from rfl]
    rw [splitOnChar_append hl]
    rw [ih t (hls t (by simp)) (fun x hx => hls x (by simp [hx]))]

theorem statusChar_cases (it : FoodItem) :
    statusChar it = '-' ∨ statusChar it = '!' ∨ statusChar it = 'x' ∨
      statusChar it = ' ' := by
  rw [statusChar]
  rcases getStockStatus it <;> simp

theorem amountToStr_no_newline (a : Amount) : '\n' ∉ amountToStr a := by
  cases a with
  | num q =>
    intro hm
    exact numChar_ne (ratToStr_numChars q _ hm) (Or.inr (Or.inl (by decide))) rfl
  | flag b => cases b <;> decide

theorem itemLine_no_newline (it : FoodItem) (hnm : '\n' ∉ it.name)
    (hnu : '\n' ∉ it.unit) : '\n' ∉ itemToMarkdownLine it := by
  rw [itemToMarkdownLine_eq]
  intro hm
  rcases List.mem_append.1 hm with h1 | h2
  · rcases List.mem_append.1 h1 with h3 | h4
    · rcases List.mem_append.1 h3 with h5 | h6
      · exact (by decide : '\n' ∉ str "- [") h5
      · simp at h6
        rcases statusChar_cases it with h | h | h | h <;> rw [h] at h6 <;>
          exact absurd h6 (by decide)
    · exact (by decide : '\n' ∉ str "] ") h4
  · rw [bodyOf] at h2
    rcases List.mem_append.1 h2 with h3 | h4
    · rcases List.mem_append.1 h3 with h5 | h6
      · rcases List.mem_append.1 h5 with h7 | h8
        · exact hnm h7
        · by_cases hbb : it.unitType = .boolean
          · rw [if_pos hbb] at h8
            by_cases htr : amountTruthy it.amount = true
            · rw [if_pos htr] at h8
              exact (by decide : '\n' ∉ str " | in stock") h8
            · rw [if_neg htr] at h8
              exact (by decide : '\n' ∉ str " | out of stock") h8
          · rw [if_neg hbb] at h8
            rcases List.mem_append.1 h8 with h9 | h10
            · rcases List.mem_append.1 h9 with h11 | h12
              · rcases List.mem_append.1 h11 with h13 | h14
                · exact (by decide : '\n' ∉ str " | ") h13
                · exact amountToStr_no_newline _ h14
              · simp at h12
            · exact hnu h10
      · rcases hmn : it.minimum with _ | m
        · rw [hmn] at h6
          simp at h6
        · rw [hmn] at h6
          have h6b : '\n' ∈ (if it.unitType = .boolean then []
            else str " | min: " ++ ratToStr m) := h6
          by_cases hbb : it.unitType = .boolean
          · rw [if_pos hbb] at h6b
            cases h6b
          · rw [if_neg hbb] at h6b
            rcases List.mem_append.1 h6b with h7 | h8
            · exact (by decide : '\n' ∉ str " | min: ") h7
            · exact numChar_ne (ratToStr_numChars m _ h8)
                (Or.inr (Or.inl (by decide))) rfl
    · by_cases hr : it.plannedRestock = true
      · rw [if_pos hr] at h4
        exact (by decide : '\n' ∉ str " | restock") h4
      · rw [if_neg hr] at h4
        cases h4

theorem insertGroup_flatten (acc : List (JStr × List FoodItem)) (cat : JStr)
    (i : FoodItem) :
    List.Perm (((insertGroup acc cat i).map Prod.snd).flatten)
      ((acc.map Prod.snd).flatten ++ [i]) := by
  induction acc with
  | nil => simp [insertGroup]
  | cons p rest ih =>
    obtain ⟨c, xs⟩ := p
    rw [insertGroup]
    by_cases hc : c = cat
    · rw [if_pos hc]
      simp only [List.map_cons, List.flatten_cons]
      rw [List.append_assoc, List.append_assoc]
      exact List.Perm.append_left xs List.perm_append_comm
    · rw [if_neg hc]
      simp only [List.map_cons, List.flatten_cons]
      rw [List.append_assoc]
      exact List.Perm.append_left xs ih

theorem groupBy_fold_flatten (items : List FoodItem)
    (acc : List (JStr × List FoodItem)) :
    List.Perm (((items.foldl (fun a i => insertGroup a i.category i) acc).map
      Prod.snd).flatten) ((acc.map Prod.snd).flatten ++ items) := by
  induction items generalizing acc with
  | nil => simp
  | cons x rest ih =>
    rw [List.foldl_cons]
    refine (ih (insertGroup acc x.category x)).trans ?_
    refine ((insertGroup_flatten acc x.category x).append_right rest).trans ?_
    rw [List.append_assoc]
    exact List.Perm.refl _

theorem groupBy_flatten (items : List FoodItem) :
    List.Perm (((groupByCategory items).map Prod.snd).flatten) items := by
  have := groupBy_fold_flatten items []
  simpa [groupByCategory] using this

theorem insertGroup_keys (acc : List (JStr × List FoodItem)) (cat : JStr)
    (i : FoodItem) :
    (insertGroup acc cat i).map Prod.fst =
      if cat ∈ acc.map Prod.fst then acc.map Prod.fst
      else acc.map Prod.fst ++ [cat] := by
  induction acc with
  | nil => simp [insertGroup]
  | cons p rest ih =>
    obtain ⟨c, xs⟩ := p
    rw [insertGroup]
    by_cases hc : c = cat
    · rw [if_pos hc]
      simp [hc]
    · rw [if_neg hc]
      simp only [List.map_cons, ih]
      by_cases hmem : cat ∈ rest.map Prod.fst
      · rw [if_pos hmem, if_pos (by simp [hmem])]
      · rw [if_neg hmem, if_neg (by
          simp only [List.mem_cons]
          rintro (h | h)
          · exact hc h.symm
          · exact hmem h)]
        simp

theorem insertGroup_keys_nodup {acc : List (JStr × List FoodItem)} {cat : JStr}
    {i : FoodItem} (h : (acc.map Prod.fst).Nodup) :
    ((insertGroup acc cat i).map Prod.fst).Nodup := by
  rw [insertGroup_keys]
  by_cases hmem : cat ∈ acc.map Prod.fst
  · rw [if_pos hmem]
    exact h
  · rw [if_neg hmem]
    simp [List.nodup_append, h, hmem]

theorem groupBy_keys_nodup (items : List FoodItem) :
    (((groupByCategory items).map Prod.fst)).Nodup := by
  rw [groupByCategory]
  have hgen : ∀ (l : List FoodItem) (acc : List (JStr × List FoodItem)),
      (acc.map Prod.fst).Nodup →
      (((l.foldl (fun a i => insertGroup a i.category i) acc)).map Prod.fst).Nodup := by
    intro l
    induction l with
    | nil => intro acc h; exact h
    | cons x rest ih =>
      intro acc h
      rw [List.foldl_cons]
      exact ih _ (insertGroup_keys_nodup h)
  exact hgen items [] (by simp)

theorem insertGroup_cat {acc : List (JStr × List FoodItem)} {cat : JStr}
    {i : FoodItem} (hacc : ∀ p ∈ acc, ∀ x ∈ p.2, FoodItem.category x = p.1)
    (hi : i.category = cat) :
    ∀ p ∈ insertGroup acc cat i, ∀ x ∈ p.2, FoodItem.category x = p.1 := by
  induction acc with
  | nil =>
    intro p hp x hx
    simp [insertGroup] at hp
    rw [hp] at hx ⊢
    simp at hx
    rw [hx, hi]
  | cons q rest ih =>
    obtain ⟨c, xs⟩ := q
    intro p hp x hx
    rw [insertGroup] at hp
    by_cases hc : c = cat
    · rw [if_pos hc] at hp
      rcases List.mem_cons.1 hp with hp1 | hp2
      · rw [hp1] at hx ⊢
        rcases List.mem_append.1 hx with h1 | h2
        · exact hacc (c, xs) (by simp) x h1
        · simp at h2
          rw [h2, hi, ← hc]
      · exact hacc p (by simp [hp2]) x hx
    · rw [if_neg hc] at hp
      rcases List.mem_cons.1 hp with hp1 | hp2
      · rw [hp1] at hx ⊢
        exact hacc (c, xs) (by simp) x hx
      · exact ih (fun r hr => hacc r (by simp [hr])) p hp2 x hx

theorem groupBy_cat (items : List FoodItem) :
    ∀ p ∈ groupByCategory items, ∀ x ∈ p.2, FoodItem.category x = p.1 := by
  rw [groupByCategory]
  have hgen : ∀ (l : List FoodItem) (acc : List (JStr × List FoodItem)),
      (∀ p ∈ acc, ∀ x ∈ p.2, FoodItem.category x = p.1) →
      ∀ p ∈ l.foldl (fun a i => insertGroup a i.category i) acc,
        ∀ x ∈ p.2, FoodItem.category x = p.1 := by
    intro l
    induction l with
    | nil => intro acc h; exact h
    | cons y rest ih =>
      intro acc h
      rw [List.foldl_cons]
      exact ih _ (insertGroup_cat h rfl)
  exact hgen items [] (by simp)

theorem lookup_head (c : JStr) (xs : List FoodItem)
    (rest : List (JStr × List FoodItem)) : lookupGroup ((c, xs) :: rest) c = xs := by
  rw [lookupGroup, List.find?_cons_of_pos _ (by simp)]

theorem lookup_ne (c : JStr) (xs : List FoodItem)
    (rest : List (JStr × List FoodItem)) (k : JStr) (h : ¬ c = k) :
    lookupGroup ((c, xs) :: rest) k = lookupGroup rest k := by
  rw [lookupGroup, List.find?_cons_of_neg _ (by simp [h]), lookupGroup]

theorem keys_map_lookup (groups : List (JStr × List FoodItem))
    (hnd : (groups.map Prod.fst).Nodup) :
    (groups.map Prod.fst).map (lookupGroup groups) = groups.map Prod.snd := by
  induction groups with
  | nil => rfl
  | cons p rest ih =>
    obtain ⟨c, xs⟩ := p
    simp only [List.map_cons] at hnd ⊢
    obtain ⟨hcnot, hndrest⟩ := List.nodup_cons.1 hnd
    rw [lookup_head]
    congr 1
    rw [List.map_congr_left (fun k hk => lookup_ne c xs rest k
      (fun hck => hcnot (hck ▸ hk)))]
    exact ih hndrest

theorem lookupGroup_entry {groups : List (JStr × List FoodItem)} {c : JStr}
    (hc : c ∈ groups.map Prod.fst) :
    ∃ p ∈ groups, p.1 = c ∧ p.2 = lookupGroup groups c := by
  rw [lookupGroup]
  cases hf : groups.find? (fun p => p.1 = c) with
  | none =>
    exfalso
    obtain ⟨p0, hp0, hfst⟩ := List.mem_map.1 hc
    have := List.find?_eq_none.1 hf p0 hp0
    simp [hfst] at this
  | some p =>
    have hp := List.find?_some hf
    have hmem := List.mem_of_find?_eq_some hf
    exact ⟨p, hmem, by simpa using hp, rfl⟩

theorem foldBlock (st : PState) (cat : JStr) (bucket : List FoodItem)
    (hfm : st.inFrontmatter = false)
    (hcat : cat = [] ∨ (trim cat = cat ∧ toLowerStr cat ≠ str "uncategorized" ∧
      cat ≠ []))
    (hb : ∀ x ∈ bucket, validItem x = true ∧ x.category = cat) :
    List.foldl parseLine st
      ((str "## " ++ (if cat = [] then str "Uncategorized" else cat)) ::
        (bucket.map itemToMarkdownLine ++ [[]])) =
      { st with
        items := st.items ++ reDo st.nextId bucket,
        currentCategory := cat,
        nextId := st.nextId + bucket.length } := by
  rw [List.foldl_cons]
  have hhead : parseLine st
      (str "## " ++ (if cat = [] then str "Uncategorized" else cat)) =
      { st with currentCategory := cat } := by
    rcases hcat with hc | ⟨hT, hU, hne⟩
    · rw [hc, if_pos rfl]
      exact parseLine_header_unc st hfm
    · rw [if_neg hne]
      exact parseLine_header st cat hfm hT hU hne
  rw [hhead, List.foldl_append]
  rw [foldItems { st with currentCategory := cat } bucket hfm (fun x hx => hb x hx)]
  rw [List.foldl_cons, parseLine_blank, List.foldl_nil]

theorem foldCats (st : PState) (groups : List (JStr × List FoodItem))
    (cats : List JStr) (hfm : st.inFrontmatter = false)
    (hcats : ∀ c ∈ cats, c = [] ∨ (trim c = c ∧ toLowerStr c ≠ str "uncategorized" ∧
      c ≠ []))
    (hbuckets : ∀ c ∈ cats, ∀ x ∈ lookupGroup groups c,
      validItem x = true ∧ x.category = c) :
    ∃ cc, List.foldl parseLine st
      ((cats.map (fun cat =>
        (str "## " ++ (if cat = [] then str "Uncategorized" else cat)) ::
          ((lookupGroup groups cat).map itemToMarkdownLine ++ [[]]))).flatten) =
      { st with
        items := st.items ++ reDo st.nextId ((cats.map (lookupGroup groups)).flatten),
        currentCategory := cc,
        nextId := st.nextId + ((cats.map (lookupGroup groups)).flatten).length } := by
  induction cats generalizing st with
  | nil =>
    exact ⟨st.currentCategory, by simp [reDo]⟩
  | cons c rest ih =>
    simp only [List.map_cons, List.flatten_cons]
    rw [List.foldl_append]
    rw [foldBlock st c (lookupGroup groups c) hfm (hcats c (by simp))
      (hbuckets c (by simp))]
    obtain ⟨cc, hcc⟩ := ih { st with items := st.items ++ reDo st.nextId (lookupGroup groups c), currentCategory := c, nextId := st.nextId + (lookupGroup groups c).length } hfm (fun k hk => hcats k (by simp [hk])) (fun k hk => hbuckets k (by simp [hk]))
    refine ⟨cc, ?_⟩
    rw [hcc]
    simp only [PState.mk.injEq]
    refine ⟨?_, trivial, trivial, by simp [List.length_append]; omega⟩
    rw [reDo_append, ← List.append_assoc]

theorem insertGroup_nonempty {acc : List (JStr × List FoodItem)} {cat : JStr}
    {i : FoodItem} (h : ∀ p ∈ acc, p.2 ≠ ([] : List FoodItem)) :
    ∀ p ∈ insertGroup acc cat i, p.2 ≠ ([] : List FoodItem) := by
  induction acc with
  | nil =>
    intro p hp
    simp [insertGroup] at hp
    rw [hp]
    simp
  | cons q rest ih =>
    obtain ⟨c, xs⟩ := q
    intro p hp
    rw [insertGroup] at hp
    by_cases hc : c = cat
    · rw [if_pos hc] at hp
      rcases List.mem_cons.1 hp with hp1 | hp2
      · rw [hp1]
        simp
      · exact h p (by simp [hp2])
    · rw [if_neg hc] at hp
      rcases List.mem_cons.1 hp with hp1 | hp2
      · rw [hp1]
        exact h (c, xs) (by simp)
      · exact ih (fun r hr => h r (by simp [hr])) p hp2

theorem groupBy_nonempty (items : List FoodItem) :
    ∀ p ∈ groupByCategory items, p.2 ≠ ([] : List FoodItem) := by
  rw [groupByCategory]
  have hgen : ∀ (l : List FoodItem) (acc : List (JStr × List FoodItem)),
      (∀ p ∈ acc, p.2 ≠ ([] : List FoodItem)) →
      ∀ p ∈ l.foldl (fun a i => insertGroup a i.category i) acc,
        p.2 ≠ ([] : List FoodItem) := by
    intro l
    induction l with
    | nil => intro acc h; exact h
    | cons y rest ih =>
      intro acc h
      rw [List.foldl_cons]
      exact ih _ (insertGroup_nonempty h)
  exact hgen items [] (by simp)

theorem validItem_parts {it : FoodItem} (h : validItem it = true) :
    validStr it.name = true ∧ validStr it.category = true ∧ validStr it.unit = true ∧
    toLowerStr it.category ≠ str "uncategorized" := by
  rw [validItem] at h
  simp only [Bool.and_eq_true] at h
  refine ⟨h.1.1.1.1, h.1.1.1.2, h.1.1.2, ?_⟩
  have h2 := h.1.2
  simp at h2
  exact h2

theorem validStr_no_newline {s : JStr} (h : validStr s = true) : '\n' ∉ s :=
  fun hc => (validStr_mem h hc).2.2.2.1 rfl

/-- The full serialize-then-parse composition: parseMarkdown of a serialized
document returns the grouped, category-sorted items, renumbered from zero and
with lowercased units. -/
theorem parseMarkdown_toMarkdown (v : ℕ) (date : JStr) (items : List FoodItem)
    (hval : ∀ it ∈ items, validItem it = true) (hdate : '\n' ∉ date) :
    parseMarkdown (toMarkdown v date items) =
      reDo 0 ((((((groupByCategory items).map Prod.fst).insertionSort
        (fun a b => catLE a b = true))).map
          (lookupGroup (groupByCategory items))).flatten) := by
  have hkeyfacts : ∀ c ∈ (groupByCategory items).map Prod.fst,
      (c = [] ∨ (trim c = c ∧ toLowerStr c ≠ str "uncategorized" ∧ c ≠ [])) ∧
      (∀ x ∈ lookupGroup (groupByCategory items) c,
        validItem x = true ∧ x.category = c) := by
    intro c hc
    obtain ⟨p, hp, hfst, hsnd⟩ := lookupGroup_entry hc
    have hxmem : ∀ x ∈ lookupGroup (groupByCategory items) c, x ∈ items := by
      intro x hx
      rw [← hsnd] at hx
      have hfl : x ∈ ((groupByCategory items).map Prod.snd).flatten :=
        List.mem_flatten.2 ⟨p.2, List.mem_map_of_mem _ hp, hx⟩
      exact (groupBy_flatten items).subset hfl
    have hxcat : ∀ x ∈ lookupGroup (groupByCategory items) c, x.category = c := by
      intro x hx
      rw [← hsnd] at hx
      rw [groupBy_cat items p hp x hx, hfst]
    constructor
    · by_cases hcnil : c = []
      · exact Or.inl hcnil
      · right
        have hne := groupBy_nonempty items p hp
        obtain ⟨x, hx⟩ := List.exists_mem_of_ne_nil p.2 hne
        rw [hsnd] at hx
        have hxv := hval x (hxmem x hx)
        have hxc := hxcat x hx
        obtain ⟨_, hcatv, _, hunc⟩ := validItem_parts hxv
        exact ⟨hxc ▸ validStr_trim hcatv, hxc ▸ hunc, hcnil⟩
    · intro x hx
      exact ⟨hval x (hxmem x hx), hxcat x hx⟩
  have hsortmem : ∀ c ∈ (((groupByCategory items).map Prod.fst).insertionSort
      (fun a b => catLE a b = true)), c ∈ (groupByCategory items).map Prod.fst :=
    fun c hc => (List.perm_insertionSort _ _).subset hc
  rw [parseMarkdown, toMarkdown]
  simp only [List.cons_append, List.nil_append]
  rw [splitOnChar_joinLines _ _ (by decide) ?hnl]
  case hnl =>
    intro x hx
    simp only [List.mem_cons] at hx
    rcases hx with rfl | rfl | rfl | rfl | rfl | hx
    · decide
    · intro hm
      rcases List.mem_append.1 hm with h1 | h2
      · exact (by decide : '\n' ∉ str "version: ") h1
      · exact numChar_ne (isNumChar_of_digit (natToStr_digits v _ h2))
          (Or.inr (Or.inl (by decide))) rfl
    · intro hm
      rcases List.mem_append.1 hm with h1 | h2
      · exact (by decide : '\n' ∉ str "lastUpdated: ") h1
      · exact hdate h2
    · decide
    · decide
    · obtain ⟨blk, hblk, hline⟩ := List.mem_flatten.1 hx
      obtain ⟨c, hcmem, hcblk⟩ := List.mem_map.1 hblk
      rw [← hcblk] at hline
      rcases List.mem_cons.1 hline with hl1 | hl2
      · rw [hl1]
        intro hm
        rcases List.mem_append.1 hm with h1 | h2
        · exact (by decide : '\n' ∉ str "## ") h1
        · by_cases hcnil : c = []
          · rw [if_pos hcnil] at h2
            exact (by decide : '\n' ∉ str "Uncategorized") h2
          · rw [if_neg hcnil] at h2
            have hne := groupBy_nonempty items
            obtain ⟨p, hp, hfst, hsnd⟩ := lookupGroup_entry (hsortmem c hcmem)
            obtain ⟨x, hxp⟩ := List.exists_mem_of_ne_nil p.2 (hne p hp)
            rw [hsnd] at hxp
            have hbf := (hkeyfacts c (hsortmem c hcmem)).2 x hxp
            obtain ⟨_, hcatv, _, _⟩ := validItem_parts hbf.1
            exact validStr_no_newline (hbf.2 ▸ hcatv) h2
      · rcases List.mem_append.1 hl2 with hl3 | hl4
        · obtain ⟨x, hxb, hxl⟩ := List.mem_map.1 hl3
          have hbf := (hkeyfacts c (hsortmem c hcmem)).2 x hxb
          obtain ⟨hnmv, _, hunitv, _⟩ := validItem_parts hbf.1
          rw [← hxl]
          exact itemLine_no_newline x (validStr_no_newline hnmv)
            (validStr_no_newline hunitv)
        · simp at hl4
          rw [hl4]
          simp
  rw [foldHeader _ rfl v date]
  obtain ⟨cc, hfold⟩ := foldCats
    { items := [], currentCategory := [], inFrontmatter := false, nextId := 0 }
    (groupByCategory items)
    (((groupByCategory items).map Prod.fst).insertionSort
      (fun a b => catLE a b = true))
    rfl
    (fun c hc => (hkeyfacts c (hsortmem c hc)).1)
    (fun c hc => (hkeyfacts c (hsortmem c hc)).2)
  rw [hfold]
  simp

theorem reDo_map_eraseId (l : List FoodItem) (n : ℕ) :
    (reDo n l).map eraseId = l.map canonUnit := by
  induction l generalizing n with
  | nil => rfl
  | cons x rest ih =>
    show eraseId { x with id := n, unit := toLowerStr x.unit } ::
      (reDo (n + 1) rest).map eraseId = canonUnit x :: rest.map canonUnit
    rw [ih (n + 1)]
    rfl

/-- C1 (amended): the round trip `parse(serialize(items))` reproduces, for
every item set satisfying the data-model invariants (sanitized trim-stable
text fields free of the forbidden characters, no literal spelled-out
uncategorized category, amount shape matching the unit type, minimum absent
and default unit on boolean items, non-negative finite-decimal numbers) on
which the unit-type-inference heuristic is idempotent, an equivalent set of
items: same name, category, unitType, amount, minimum and plannedRestock for
each item, the freshly regenerated ids ignored — but the unit comes back
lowercased, because parseItemContent lowercases the whole amount field, so
units are preserved only up to ASCII case. -/
theorem roundtrip_mod_unit (v : ℕ) (date : JStr) (items : List FoodItem)
    (hval : ∀ it ∈ items, validItem it = true) (hdate : Char.ofNat 10 ∉ date) :
    List.Perm ((parseMarkdown (toMarkdown v date items)).map eraseId)
      (items.map canonUnit) := by
  rw [parseMarkdown_toMarkdown v date items hval hdate, reDo_map_eraseId]
  apply List.Perm.map
  refine (List.Perm.flatten (List.Perm.map _ (List.perm_insertionSort _ _))).trans ?_
  rw [keys_map_lookup _ (groupBy_keys_nodup items)]
  exact groupBy_flatten items

/-- Concrete instance of the amended C1 round trip: the single-item set
whose unit is spelled "L" comes back with unit "l" and everything else
preserved. -/
theorem roundtrip_mod_unit_witness :
    (∀ it ∈ [milkL], validItem it = true) ∧ Char.ofNat 10 ∉ str "2024-01-01" ∧
    List.Perm ((parseMarkdown (toMarkdown 1 (str "2024-01-01") [milkL])).map eraseId)
      ([milkL].map canonUnit) :=
  ⟨by decide, by decide,
    roundtrip_mod_unit 1 (str "2024-01-01") [milkL] (by decide) (by decide)⟩

end Stoker
